import Mathlib

/-
Verification of the scheduling core in src/python/pants/engine/exp/scheduler.py.

Shallow embedding conventions:
* Python objects that the scheduler treats opaquely (functions, task types,
  attribute names, addresses, product types) are coded by naturals.
* Python `None` turns into `Option.none`; exceptions turn into `Except`.
* Recursive graph walks of the source have no termination guard (the spec
  assumes a DAG), so the embedding threads an explicit fuel parameter;
  running out of fuel is an error distinct from any source behaviour.
* Python objects that compare by identity (the `SourceNone()` and `SourceOR()`
  instances created with `()` at each use) carry a freshness counter `oid`.
* Messages of raised exceptions are abstracted; only the exception class and
  its constructor payload are modelled.
-/

namespace Sched

/-- Concrete product value: a Python object carrying its type. `type(x)` of the
source is modelled by the `ptype` field. -/
structure PValue where
  ptype : Nat
  pval : Nat
deriving DecidableEq

/-- Domain entity playing the role of a subject. `isTarget` models
`isinstance(subject, Target)`; a target carries `configurations`, any other
subject is itself a product (`selfProduct`). -/
structure Entity where
  eid : Nat
  isTarget : Bool
  configurations : List PValue
  selfProduct : PValue
deriving DecidableEq

/-- Subject of a production plan (class `Subject`): a primary entity plus an
optional alternate.  Python equality and hash use only the primary. -/
structure Subject where
  primary : Entity
  alternate : Option Entity
deriving DecidableEq

/-- Argument that may be a `Subject` already or a raw entity, as accepted by
`Subject.as_subject` (`isinstance(item, Subject)` dispatch). -/
inductive SubjectArg where
  | already (s : Subject)
  | raw (e : Entity)
deriving DecidableEq

/-- Embeds `Subject.as_subject`: return the given item as the primary of a
subject if it is not already a subject. -/
def Subject.as_subject : SubjectArg → Subject
  | .already s => s
  | .raw e => ⟨e, none⟩

/-- Embeds `Subject.native_products_for_subject`: configurations of a target,
otherwise the subject itself as a product. -/
def Subject.native_products_for_subject (e : Entity) : List PValue :=
  if e.isTarget then e.configurations else [e.selfProduct]

/-- Key of the promises table of `ProductMapper` (the keyed `Promise` class).

Modelled from the spec: the keyed promise class constructed as
`Promise(product_type, subject, configuration=configuration)` in
`ProductMapper` is absent from the source file (the `Promise` class present
there is the thread future taking no constructor arguments).  Spec section 3
states the key is (subject, product type, optional configuration) with the
subject compared by `Subject` equality, that is by its primary entity. -/
structure PromiseKey where
  productType : Nat
  subjectPrimary : Entity
  config : Option PValue
deriving DecidableEq

/-- Selector variants nested in class `Select`. -/
inductive Selector where
  | subject
  | dependencies (configuration : Option PValue)
  | literalSubject (address : Nat)
deriving DecidableEq

/-- Embeds the namedtuple `Select(selector, product)`. -/
structure Select where
  selector : Selector
  product : Nat
deriving DecidableEq

/-- Embeds the namedtuple `TaskCategorization(func, task_type)`, the Either
type for a function or a `Task` type. -/
structure TaskCategorization where
  func : Option Nat
  task_type : Option Nat
deriving DecidableEq

/-- Embeds `TaskCategorization.of_func`. -/
def TaskCategorization.of_func (f : Nat) : TaskCategorization := ⟨some f, none⟩

/-- Embeds `TaskCategorization.of_task_type`. -/
def TaskCategorization.of_task_type (t : Nat) : TaskCategorization := ⟨none, some t⟩

/-- Argument of `_categorize`: an existing categorization, a `Task` subclass,
or a plain function. -/
inductive FuncOrTaskArg where
  | cat (c : TaskCategorization)
  | taskType (t : Nat)
  | func (f : Nat)
deriving DecidableEq

/-- Embeds `_categorize`.  The `ValueError` branch for a class that is not a
`Task` subclass is a Python type-level check with no counterpart here: the
`taskType` constructor only admits task types. -/
def categorize : FuncOrTaskArg → TaskCategorization
  | .cat c => c
  | .taskType t => .of_task_type t
  | .func f => .of_func f

/-- Input values of a `Plan`: opaque objects, keyed promises, sequences and
mappings, mirroring the structures `Plan._key`, `Plan.promises` and
`Plan.bind` recurse over.  Mapping keys are modelled as naturals (Python dict
keys are opaque to every operation of the source except sorting). -/
inductive Value where
  | obj : Nat → Value
  | prom : PromiseKey → Value
  | vlist : List Value → Value
  | vmap : List (Nat × Value) → Value

mutual

/-- Structural equality test for `Value`, mirroring Python tuple/dict
equality. -/
def Value.beq : Value → Value → Bool
  | .obj a, .obj b => a == b
  | .prom a, .prom b => a == b
  | .vlist xs, .vlist ys => Value.beqL xs ys
  | .vmap es, .vmap fs => Value.beqM es fs
  | _, _ => false

/-- Elementwise `Value.beq` on sequences. -/
def Value.beqL : List Value → List Value → Bool
  | [], [] => true
  | x :: xs, y :: ys => Value.beq x y && Value.beqL xs ys
  | _, _ => false

/-- Entrywise `Value.beq` on mapping entry lists. -/
def Value.beqM : List (Nat × Value) → List (Nat × Value) → Bool
  | [], [] => true
  | (k, v) :: es, (k', v') :: fs => k == k' && Value.beq v v' && Value.beqM es fs
  | _, _ => false

end

/-- Induction principle for `Value` giving hypotheses for every member of a
nested list. -/
theorem Value.myInd (motive : Value → Prop)
    (hobj : ∀ n, motive (.obj n)) (hprom : ∀ k, motive (.prom k))
    (hlist : ∀ xs, (∀ x ∈ xs, motive x) → motive (.vlist xs))
    (hmap : ∀ es, (∀ e ∈ es, motive e.2) → motive (.vmap es)) : ∀ v, motive v
  | .obj n => hobj n
  | .prom k => hprom k
  | .vlist xs => hlist xs (fun x hx =>
      have : sizeOf x < sizeOf xs := List.sizeOf_lt_of_mem hx
      Value.myInd motive hobj hprom hlist hmap x)
  | .vmap es => hmap es (fun e he =>
      have h1 : sizeOf e < sizeOf es := List.sizeOf_lt_of_mem he
      have h2 : sizeOf e.2 < sizeOf e := by
        obtain ⟨a, b⟩ := e; simp only [Prod.mk.sizeOf_spec]; omega
      Value.myInd motive hobj hprom hlist hmap e.2)
termination_by v => sizeOf v
decreasing_by
  · simp; omega
  · simp; omega

theorem Value.beqL_iff (xs ys : List Value)
    (ih : ∀ x ∈ xs, ∀ w, Value.beq x w = true ↔ x = w) :
    Value.beqL xs ys = true ↔ xs = ys := by
  induction xs generalizing ys with
  | nil => cases ys <;> simp [Value.beqL]
  | cons x xs ihx =>
    cases ys with
    | nil => simp [Value.beqL]
    | cons y ys =>
      simp only [Value.beqL, Bool.and_eq_true]
      rw [ih x (by simp), ihx ys (fun a ha w => ih a (by simp [ha]) w)]
      simp

theorem Value.beqM_iff (es fs : List (Nat × Value))
    (ih : ∀ e ∈ es, ∀ w, Value.beq e.2 w = true ↔ e.2 = w) :
    Value.beqM es fs = true ↔ es = fs := by
  induction es generalizing fs with
  | nil => cases fs <;> simp [Value.beqM]
  | cons e es ihe =>
    cases fs with
    | nil => obtain ⟨k, v⟩ := e; simp [Value.beqM]
    | cons f fs =>
      obtain ⟨k, v⟩ := e
      obtain ⟨k', v'⟩ := f
      have ihv : ∀ w, Value.beq v w = true ↔ v = w := ih (k, v) (by simp)
      simp only [Value.beqM, Bool.and_eq_true, beq_iff_eq]
      rw [ihv, ihe fs (fun a ha w => ih a (by simp [ha]) w)]
      constructor
      · rintro ⟨⟨h1, h2⟩, h3⟩; rw [h1, h2, h3]
      · intro h
        injection h with h1 h2
        injection h1 with hk hv
        exact ⟨⟨hk, hv⟩, h2⟩

theorem Value.beq_iff : ∀ v w : Value, Value.beq v w = true ↔ v = w := by
  intro v
  induction v using Value.myInd with
  | hobj n => intro w; cases w <;> simp [Value.beq]
  | hprom k => intro w; cases w <;> simp [Value.beq]
  | hlist xs ih =>
    intro w; cases w <;> simp [Value.beq]
    exact Value.beqL_iff xs _ ih
  | hmap es ih =>
    intro w; cases w <;> simp [Value.beq]
    exact Value.beqM_iff es _ ih

instance : DecidableEq Value := fun v w => decidable_of_iff _ (Value.beq_iff v w)

/-- Inserts a mapping entry into an entry list sorted by key, after any entry
with a smaller or equal key (the stable placement Python sorting gives to
entries with distinct keys). -/
def insertEntry (e : Nat × Value) : List (Nat × Value) → List (Nat × Value)
  | [] => [e]
  | f :: fs => if e.1 < f.1 then e :: f :: fs else f :: insertEntry e fs

/-- Embeds the `sorted` call of `Plan._key.hashable` on mapping entries.
Python sorts the pairs `(k, hashable(v))` lexicographically; dict keys are
distinct, so this is a sort by key, realized here as a stable insertion
sort. -/
def sortEntries : List (Nat × Value) → List (Nat × Value)
  | [] => []
  | e :: es => insertEntry e (sortEntries es)

mutual

/-- Embeds the inner function `hashable` of `Plan._key`: mappings become
sorted tuples of (key, hashable value) pairs, other iterables become tuples
of hashable elements, and leaves stand for themselves. -/
def Value.hashable : Value → Value
  | .obj n => .obj n
  | .prom k => .prom k
  | .vlist xs => .vlist (Value.hashableL xs)
  | .vmap es =>
      .vlist ((sortEntries (Value.hashableM es)).map (fun e => Value.vlist [.obj e.1, e.2]))

/-- Maps `Value.hashable` over sequence elements. -/
def Value.hashableL : List Value → List Value
  | [] => []
  | x :: xs => x.hashable :: Value.hashableL xs

/-- Maps `Value.hashable` over the values of mapping entries. -/
def Value.hashableM : List (Nat × Value) → List (Nat × Value)
  | [] => []
  | (k, v) :: es => (k, v.hashable) :: Value.hashableM es

end

mutual

/-- Embeds the inner generator `iter_promises` of `Plan.promises`: collect
every keyed promise among a value, descending through mapping values and
sequence elements. -/
def Value.promsOf : Value → List PromiseKey
  | .obj _ => []
  | .prom k => [k]
  | .vlist xs => Value.promsOfL xs
  | .vmap es => Value.promsOfM es

/-- Collects promises of every element of a sequence. -/
def Value.promsOfL : List Value → List PromiseKey
  | [] => []
  | x :: xs => x.promsOf ++ Value.promsOfL xs

/-- Collects promises of every value of a mapping (keys are not scanned,
mirroring `for _, v in item.items()`). -/
def Value.promsOfM : List (Nat × Value) → List PromiseKey
  | [] => []
  | (_, v) :: es => v.promsOf ++ Value.promsOfM es

end

/-- Hash of a `PromiseKey`; any function of the key fits the model. -/
def pkHash (k : PromiseKey) : Nat :=
  k.productType + 2 * k.subjectPrimary.eid

mutual

/-- Hash function on values, standing for the Python hash of the normalized
tuple structure; equal values hash equal by congruence. -/
def Value.vhash : Value → Nat
  | .obj n => 2 * n + 1
  | .prom k => 3 * pkHash k + 2
  | .vlist xs => 5 * Value.vhashL xs + 3
  | .vmap es => 7 * Value.vhashM es + 4

/-- Hash accumulator for sequences. -/
def Value.vhashL : List Value → Nat
  | [] => 0
  | x :: xs => 31 * Value.vhashL xs + x.vhash

/-- Hash accumulator for mapping entries. -/
def Value.vhashM : List (Nat × Value) → Nat
  | [] => 0
  | (k, v) :: es => 31 * Value.vhashM es + 37 * k + v.vhash

end

/-- Embeds class `Plan`: a categorized executable, the subjects the plan
covers (the frozenset of the source is carried as a list and always compared
with set semantics by the primary of each subject), and the named inputs
(the kwargs dict, names coded as naturals). -/
structure Plan where
  func_or_task_type : TaskCategorization
  subjects : List Subject
  inputs : List (Nat × Value)
deriving DecidableEq

/-- Embeds `Plan.__init__`: categorize the executable and normalize every
subject through `Subject.as_subject`. -/
def Plan.make (fot : FuncOrTaskArg) (subjects : List SubjectArg)
    (inputs : List (Nat × Value)) : Plan :=
  ⟨categorize fot, subjects.map Subject.as_subject, inputs⟩

/-- Set equality of subject lists under the Python `Subject` equality, which
compares primaries only: this is frozenset equality as used by `Plan._key`. -/
def subjSetBeq (a b : List Subject) : Bool :=
  a.all (fun s => b.any (fun t => s.primary == t.primary)) &&
  b.all (fun s => a.any (fun t => s.primary == t.primary))

/-- Normal form of the inputs of a plan: the third component of `Plan._key`,
`hashable(self._inputs)` applied to the kwargs dict. -/
def Plan.hashableInputs (p : Plan) : Value :=
  Value.hashable (.vmap p.inputs)

/-- Embeds `Plan.__eq__` through `Plan._key`: componentwise equality of the
categorization, the subject frozenset and the normalized inputs. -/
def Plan.planEq (p q : Plan) : Bool :=
  p.func_or_task_type == q.func_or_task_type &&
  subjSetBeq p.subjects q.subjects &&
  p.hashableInputs == q.hashableInputs

/-- Embeds `Plan.__hash__`, `hash(self._key())`: combines hashes of the three
key components; the frozenset hash is order independent. -/
def Plan.plan_hash (p : Plan) : Nat :=
  (p.func_or_task_type.func.getD 0) + 11 * (p.func_or_task_type.task_type.getD 0) +
  13 * (((p.subjects.map (fun s => s.primary)).dedup.map (fun e => e.eid)).sum) +
  17 * Value.vhash p.hashableInputs

/-- Embeds `Plan.promises`: the set of keyed promises among the input values,
as a duplicate-free list. -/
def Plan.promList (p : Plan) : List PromiseKey :=
  (Value.promsOfM p.inputs).dedup

theorem insertEntry_perm (e : Nat × Value) (l : List (Nat × Value)) :
    (insertEntry e l).Perm (e :: l) := by
  induction l with
  | nil => simp [insertEntry]
  | cons f fs ih =>
    simp only [insertEntry]
    split
    · exact List.Perm.refl _
    · exact ((ih.cons f).trans (List.Perm.swap e f fs))

theorem sortEntries_perm (l : List (Nat × Value)) : (sortEntries l).Perm l := by
  induction l with
  | nil => simp [sortEntries]
  | cons e es ih => exact (insertEntry_perm e (sortEntries es)).trans (ih.cons e)

theorem insertEntry_sorted (e : Nat × Value) (l : List (Nat × Value))
    (h : l.Pairwise (fun a b => a.1 ≤ b.1)) :
    (insertEntry e l).Pairwise (fun a b => a.1 ≤ b.1) := by
  induction l with
  | nil => simp [insertEntry]
  | cons f fs ih =>
    rw [List.pairwise_cons] at h
    simp only [insertEntry]
    split
    · rename_i hlt
      rw [List.pairwise_cons]
      refine ⟨?_, List.pairwise_cons.mpr h⟩
      intro b hb
      rcases List.mem_cons.mp hb with hb' | hb'
      · subst hb'; omega
      · have := h.1 b hb'; omega
    · rename_i hge
      rw [List.pairwise_cons]
      refine ⟨?_, ih h.2⟩
      intro b hb
      rcases List.mem_cons.mp ((insertEntry_perm e fs).mem_iff.mp hb) with hb' | hb'
      · subst hb'; omega
      · exact h.1 b hb'

theorem sortEntries_sorted (l : List (Nat × Value)) :
    (sortEntries l).Pairwise (fun a b => a.1 ≤ b.1) := by
  induction l with
  | nil => simp [sortEntries]
  | cons e es ih => exact insertEntry_sorted e _ ih

/-- Uniqueness of a key-sorted arrangement: two permuted entry lists, both
sorted by key, with no duplicate key, are equal. -/
theorem sorted_nodupkeys_eq : ∀ (l₁ l₂ : List (Nat × Value)), l₁.Perm l₂ →
    l₁.Pairwise (fun a b => a.1 ≤ b.1) → l₂.Pairwise (fun a b => a.1 ≤ b.1) →
    (l₁.map Prod.fst).Nodup → l₁ = l₂
  | [], l₂, hp, _, _, _ => by
      have h2 : l₂ = [] := hp.symm.eq_nil
      rw [h2]
  | a :: t₁, [], hp, _, _, _ => by
      exact absurd hp.length_eq (by simp)
  | a :: t₁, b :: t₂, hp, hs₁, hs₂, hnd => by
      rw [List.map_cons, List.nodup_cons] at hnd
      have hab : a = b := by
        have hs₁' := List.pairwise_cons.mp hs₁
        have hs₂' := List.pairwise_cons.mp hs₂
        have hbmem : b ∈ a :: t₁ := hp.mem_iff.mpr (by simp)
        have hamem : a ∈ b :: t₂ := hp.mem_iff.mp (by simp)
        rcases List.mem_cons.mp hbmem with h | h
        · exact h.symm
        · rcases List.mem_cons.mp hamem with h' | h'
          · exact h'
          · have h1 : a.1 ≤ b.1 := hs₁'.1 b h
            have h2 : b.1 ≤ a.1 := hs₂'.1 a h'
            have hk : a.1 = b.1 := le_antisymm h1 h2
            exfalso
            have : a.1 ∈ t₁.map Prod.fst := by
              rw [hk]; exact List.mem_map_of_mem Prod.fst h
            exact hnd.1 this
      subst hab
      have hp' : t₁.Perm t₂ := hp.cons_inv
      have := sorted_nodupkeys_eq t₁ t₂ hp'
        (List.pairwise_cons.mp hs₁).2 (List.pairwise_cons.mp hs₂).2 hnd.2
      rw [this]

theorem hashableM_eq_map (es : List (Nat × Value)) :
    Value.hashableM es = es.map (fun e => (e.1, e.2.hashable)) := by
  induction es with
  | nil => rfl
  | cons e es ih => obtain ⟨k, v⟩ := e; simp [Value.hashableM, ih]

theorem hashableL_eq_map (xs : List Value) :
    Value.hashableL xs = xs.map Value.hashable := by
  induction xs with
  | nil => rfl
  | cons x xs ih => simp [Value.hashableL, ih]

/-- Key-permutation invariance of the input normalization: permuting the
entries of a mapping with distinct keys does not change `hashable`. -/
theorem hashable_vmap_perm (es es' : List (Nat × Value)) (hperm : es.Perm es')
    (hnd : (es.map Prod.fst).Nodup) :
    Value.hashable (.vmap es) = Value.hashable (.vmap es') := by
  have hM : (Value.hashableM es).Perm (Value.hashableM es') := by
    rw [hashableM_eq_map, hashableM_eq_map]
    exact hperm.map _
  have hkeys : (Value.hashableM es).map Prod.fst = es.map Prod.fst := by
    rw [hashableM_eq_map]; simp
  have hsorted := sorted_nodupkeys_eq (sortEntries (Value.hashableM es))
    (sortEntries (Value.hashableM es'))
    (((sortEntries_perm _).trans hM).trans (sortEntries_perm _).symm)
    (sortEntries_sorted _) (sortEntries_sorted _)
    (((sortEntries_perm (Value.hashableM es)).map Prod.fst).nodup_iff.mpr
      (by rw [hkeys]; exact hnd))
  show Value.hashable (.vmap es) = Value.hashable (.vmap es')
  rw [Value.hashable, Value.hashable, hsorted]

theorem subjSetBeq_iff (a b : List Subject) :
    subjSetBeq a b = true ↔
      ∀ x, (x ∈ a.map (fun s => s.primary)) ↔ (x ∈ b.map (fun s => s.primary)) := by
  unfold subjSetBeq
  simp only [Bool.and_eq_true, List.all_eq_true, List.any_eq_true, beq_iff_eq]
  constructor
  · rintro ⟨h1, h2⟩ x
    constructor
    · rintro hx
      rcases List.mem_map.mp hx with ⟨s, hs, rfl⟩
      rcases h1 s hs with ⟨t, ht, hst⟩
      exact List.mem_map.mpr ⟨t, ht, hst.symm⟩
    · rintro hx
      rcases List.mem_map.mp hx with ⟨s, hs, rfl⟩
      rcases h2 s hs with ⟨t, ht, hst⟩
      exact List.mem_map.mpr ⟨t, ht, hst.symm⟩
  · intro h
    constructor
    · intro s hs
      have : s.primary ∈ b.map (fun s => s.primary) :=
        (h s.primary).mp (List.mem_map_of_mem _ hs)
      rcases List.mem_map.mp this with ⟨t, ht, hst⟩
      exact ⟨t, ht, hst.symm⟩
    · intro s hs
      have : s.primary ∈ a.map (fun s => s.primary) :=
        (h s.primary).mpr (List.mem_map_of_mem _ hs)
      rcases List.mem_map.mp this with ⟨t, ht, hst⟩
      exact ⟨t, ht, hst.symm⟩

theorem planEq_iff (p q : Plan) :
    Plan.planEq p q = true ↔
      p.func_or_task_type = q.func_or_task_type ∧
      subjSetBeq p.subjects q.subjects = true ∧
      p.hashableInputs = q.hashableInputs := by
  unfold Plan.planEq
  simp only [Bool.and_eq_true, beq_iff_eq]
  tauto

theorem planEq_refl (p : Plan) : Plan.planEq p p = true := by
  rw [planEq_iff]
  exact ⟨rfl, (subjSetBeq_iff _ _).mpr (fun x => Iff.rfl), rfl⟩

theorem planEq_symm (p q : Plan) (h : Plan.planEq p q = true) : Plan.planEq q p = true := by
  rw [planEq_iff] at h ⊢
  obtain ⟨h1, h2, h3⟩ := h
  exact ⟨h1.symm, (subjSetBeq_iff _ _).mpr (fun x => ((subjSetBeq_iff _ _).mp h2 x).symm), h3.symm⟩

theorem planEq_trans (p q r : Plan) (h1 : Plan.planEq p q = true)
    (h2 : Plan.planEq q r = true) : Plan.planEq p r = true := by
  rw [planEq_iff] at h1 h2 ⊢
  obtain ⟨a1, b1, c1⟩ := h1
  obtain ⟨a2, b2, c2⟩ := h2
  exact ⟨a1.trans a2,
    (subjSetBeq_iff _ _).mpr (fun x =>
      ((subjSetBeq_iff _ _).mp b1 x).trans ((subjSetBeq_iff _ _).mp b2 x)),
    c1.trans c2⟩

theorem planEq_hash (p q : Plan) (h : Plan.planEq p q = true) :
    Plan.plan_hash p = Plan.plan_hash q := by
  rw [planEq_iff] at h
  obtain ⟨h1, h2, h3⟩ := h
  unfold Plan.plan_hash
  rw [h1, h3]
  have hmem := (subjSetBeq_iff _ _).mp h2
  have hdperm : ((p.subjects.map (fun s => s.primary)).dedup).Perm
      ((q.subjects.map (fun s => s.primary)).dedup) := by
    rw [List.perm_ext_iff_of_nodup (List.nodup_dedup _) (List.nodup_dedup _)]
    intro x
    rw [List.mem_dedup, List.mem_dedup]
    exact hmem x
  rw [(hdperm.map (fun e => e.eid)).sum_eq]

theorem promsOfM_perm (es fs : List (Nat × Value)) (h : es.Perm fs) :
    (Value.promsOfM es).Perm (Value.promsOfM fs) := by
  induction h with
  | nil => exact List.Perm.refl _
  | cons x h ih =>
    obtain ⟨k, v⟩ := x
    simpa [Value.promsOfM] using ih.append_left v.promsOf
  | swap x y l =>
    obtain ⟨k, v⟩ := x
    obtain ⟨k', v'⟩ := y
    simp only [Value.promsOfM]
    rw [← List.append_assoc, ← List.append_assoc]
    exact (List.perm_append_comm).append_right _
  | trans h1 h2 ih1 ih2 => exact ih1.trans ih2

theorem promsOfL_pairs (l : List (Nat × Value)) :
    Value.promsOfL (l.map (fun e => Value.vlist [.obj e.1, e.2])) = Value.promsOfM l := by
  induction l with
  | nil => rfl
  | cons e es ih =>
    obtain ⟨k, v⟩ := e
    simp [Value.promsOfL, Value.promsOfM, Value.promsOf, ih]

theorem promsOf_hashable : ∀ v : Value, (Value.promsOf v.hashable).Perm (Value.promsOf v) := by
  intro v
  induction v using Value.myInd with
  | hobj n => simp [Value.hashable]
  | hprom k => simp [Value.hashable]
  | hlist xs ih =>
    simp only [Value.hashable, Value.promsOf]
    induction xs with
    | nil => simp [Value.hashableL, Value.promsOfL]
    | cons x xs ihx =>
      simp only [Value.hashableL, Value.promsOfL]
      exact (ih x (by simp)).append (ihx (fun a ha => ih a (by simp [ha])))
  | hmap es ih =>
    simp only [Value.hashable, Value.promsOf]
    rw [promsOfL_pairs]
    have h1 : (Value.promsOfM (sortEntries (Value.hashableM es))).Perm
        (Value.promsOfM (Value.hashableM es)) :=
      promsOfM_perm _ _ (sortEntries_perm _)
    refine h1.trans ?_
    have hM : ∀ l : List (Nat × Value),
        (∀ e ∈ l, ((Value.promsOf (Value.hashable e.2)).Perm (Value.promsOf e.2))) →
        (Value.promsOfM (Value.hashableM l)).Perm (Value.promsOfM l) := by
      intro l hl
      induction l with
      | nil => simp [Value.hashableM, Value.promsOfM]
      | cons e es ihe =>
        obtain ⟨k, v⟩ := e
        simp only [Value.hashableM, Value.promsOfM]
        exact (hl (k, v) (by simp)).append (ihe (fun a ha => hl a (by simp [ha])))
    exact hM es ih

theorem planEq_promList (p q : Plan) (h : Plan.planEq p q = true) :
    (Plan.promList p).Perm (Plan.promList q) := by
  rw [planEq_iff] at h
  have h3 : Value.hashable (.vmap p.inputs) = Value.hashable (.vmap q.inputs) := h.2.2
  have hp : (Value.promsOfM p.inputs).Perm (Value.promsOfM q.inputs) := by
    have s1 : (Value.promsOf (Value.hashable (.vmap p.inputs))).Perm
        (Value.promsOfM p.inputs) := promsOf_hashable (.vmap p.inputs)
    have s2 : (Value.promsOf (Value.hashable (.vmap q.inputs))).Perm
        (Value.promsOfM q.inputs) := promsOf_hashable (.vmap q.inputs)
    rw [h3] at s1
    exact s1.symm.trans s2
  unfold Plan.promList
  exact hp.dedup

theorem planEq_promList_mem (p q : Plan) (h : Plan.planEq p q = true) (k : PromiseKey) :
    k ∈ Plan.promList p ↔ k ∈ Plan.promList q :=
  (planEq_promList p q h).mem_iff

theorem subjSetBeq_self (a : List Subject) : subjSetBeq a a = true :=
  (subjSetBeq_iff a a).mpr (fun _ => Iff.rfl)

theorem hashable_obj_list (zs : List Nat) :
    Value.hashable (.vlist (zs.map .obj)) = .vlist (zs.map .obj) := by
  rw [Value.hashable, hashableL_eq_map, List.map_map]
  exact congrArg Value.vlist (List.map_congr_left (fun a _ => rfl))

theorem hashableInputs_single_objlist (fot : FuncOrTaskArg) (sargs : List SubjectArg)
    (nm : Nat) (zs : List Nat) :
    Plan.hashableInputs (Plan.make fot sargs [(nm, .vlist (zs.map .obj))]) =
      .vlist [.vlist [.obj nm, .vlist (zs.map .obj)]] := by
  show Value.hashable (.vmap [(nm, .vlist (zs.map .obj))]) = _
  rw [Value.hashable]
  have h1 : Value.hashableM [(nm, Value.vlist (zs.map .obj))]
      = [(nm, Value.vlist (zs.map .obj))] := by
    show [(nm, Value.hashable (.vlist (zs.map .obj)))] = _
    rw [hashable_obj_list]
  rw [h1]
  rfl

/-- C4: the claimed contract of `Plan._key`, amended.  Equality implies equal
hash; equality is invariant under reordering of input-mapping entries (for
the kwarg mapping and for any nested mapping, whose keys are distinct in a
dict); equal plans agree on the executable and on the subject set; and
sequences of distinct leaf objects in different orders give unequal plans.
The unrestricted claim that any differing nested input values give unequal
plans fails: see the counterexample theorem. -/
theorem claim_C4 (p q : Plan) (fot : FuncOrTaskArg) (sargs : List SubjectArg)
    (es es' : List (Nat × Value)) (nm : Nat) (xs ys : List Nat)
    (hperm : es.Perm es') (hnd : (es.map Prod.fst).Nodup) (hxy : xs ≠ ys) :
    (Plan.planEq p q = true → Plan.plan_hash p = Plan.plan_hash q) ∧
    Value.hashable (.vmap es) = Value.hashable (.vmap es') ∧
    Plan.planEq (Plan.make fot sargs es) (Plan.make fot sargs es') = true ∧
    (Plan.planEq p q = true →
      p.func_or_task_type = q.func_or_task_type ∧
      ∀ x, (x ∈ p.subjects.map (fun s => s.primary)) ↔
        (x ∈ q.subjects.map (fun s => s.primary))) ∧
    Plan.planEq (Plan.make fot sargs [(nm, .vlist (xs.map .obj))])
        (Plan.make fot sargs [(nm, .vlist (ys.map .obj))]) = false := by
  refine ⟨planEq_hash p q, hashable_vmap_perm es es' hperm hnd, ?_, ?_, ?_⟩
  · rw [planEq_iff]
    exact ⟨rfl, subjSetBeq_self _, hashable_vmap_perm es es' hperm hnd⟩
  · intro h
    rw [planEq_iff] at h
    exact ⟨h.1, (subjSetBeq_iff _ _).mp h.2.1⟩
  · cases hpe : Plan.planEq (Plan.make fot sargs [(nm, .vlist (xs.map .obj))])
        (Plan.make fot sargs [(nm, .vlist (ys.map .obj))]) with
    | false => rfl
    | true =>
      exfalso
      rw [planEq_iff] at hpe
      have h3 := hpe.2.2
      rw [hashableInputs_single_objlist, hashableInputs_single_objlist] at h3
      have h4 : xs.map Value.obj = ys.map Value.obj := by simpa using h3
      exact hxy (List.map_injective_iff.mpr (fun a b hab => by injection hab) h4)

theorem claim_C4_witness :
    ([((1 : Nat), Value.obj 5), (2, .obj 6)].Perm [(2, .obj 6), (1, .obj 5)]) ∧
    (([((1 : Nat), Value.obj 5), (2, .obj 6)].map Prod.fst).Nodup) ∧
    (([1, 2] : List Nat) ≠ [2, 1]) ∧
    ((Plan.planEq (Plan.make (.func 0) [] []) (Plan.make (.func 0) [] []) = true →
        Plan.plan_hash (Plan.make (.func 0) [] []) = Plan.plan_hash (Plan.make (.func 0) [] [])) ∧
      Value.hashable (.vmap [(1, .obj 5), (2, .obj 6)]) =
        Value.hashable (.vmap [(2, .obj 6), (1, .obj 5)]) ∧
      Plan.planEq (Plan.make (.func 0) [] [(1, .obj 5), (2, .obj 6)])
          (Plan.make (.func 0) [] [(2, .obj 6), (1, .obj 5)]) = true ∧
      (Plan.planEq (Plan.make (.func 0) [] []) (Plan.make (.func 0) [] []) = true →
        (Plan.make (.func 0) [] []).func_or_task_type =
          (Plan.make (.func 0) [] []).func_or_task_type ∧
        ∀ x, (x ∈ (Plan.make (.func 0) [] []).subjects.map (fun s => s.primary)) ↔
          (x ∈ (Plan.make (.func 0) [] []).subjects.map (fun s => s.primary))) ∧
      Plan.planEq (Plan.make (.func 0) [] [(7, .vlist ([1, 2].map .obj))])
          (Plan.make (.func 0) [] [(7, .vlist ([2, 1].map .obj))]) = false) :=
  ⟨List.Perm.swap ((2 : Nat), Value.obj 6) ((1 : Nat), Value.obj 5) [], by decide, by decide,
    claim_C4 _ _ (.func 0) [] _ _ 7 [1, 2] [2, 1]
      (List.Perm.swap ((2 : Nat), Value.obj 6) ((1 : Nat), Value.obj 5) [])
      (by decide) (by decide)⟩

/-- C4 counterexample: two plans whose nested input values differ (a mapping
against a sequence of pairs) and that are nevertheless equal, because the
mapping normalizes to exactly the tuple form of its sorted entries. -/
theorem claim_C4_counterexample :
    Plan.planEq
        (Plan.make (.func 0) [] [(0, .vmap [(1, .obj 2)])])
        (Plan.make (.func 0) [] [(0, .vlist [.vlist [.obj 1, .obj 2]])]) = true ∧
    (Plan.make (.func 0) [] [(0, .vmap [(1, .obj 2)])]).inputs ≠
      (Plan.make (.func 0) [] [(0, .vlist [.vlist [.obj 1, .obj 2]])]).inputs := by
  constructor
  · decide
  · decide

theorem raw_primaries (raws : List Entity) :
    ((raws.map SubjectArg.raw).map Subject.as_subject).map (fun s => s.primary) = raws := by
  induction raws with
  | nil => rfl
  | cons r rs ih =>
    simp only [List.map_cons]
    rw [ih]
    rfl

theorem already_primaries (subs : List Subject) :
    ((subs.map SubjectArg.already).map Subject.as_subject).map (fun s => s.primary)
      = subs.map (fun s => s.primary) := by
  induction subs with
  | nil => rfl
  | cons r rs ih =>
    simp only [List.map_cons]
    rw [ih]
    rfl

/-- C10: `Subject.as_subject` is idempotent, and the `Plan` constructor
normalizes raw entities and subject wrappers with the same primaries to equal
plans. -/
theorem claim_C10 (x : SubjectArg) (fot : FuncOrTaskArg) (inputs : List (Nat × Value))
    (raws : List Entity) (subs : List Subject)
    (h : subs.map (fun s => s.primary) = raws) :
    Subject.as_subject (.already (Subject.as_subject x)) = Subject.as_subject x ∧
    Plan.planEq (Plan.make fot (raws.map .raw) inputs)
        (Plan.make fot (subs.map .already) inputs) = true := by
  constructor
  · cases x <;> rfl
  · rw [planEq_iff]
    refine ⟨rfl, ?_, rfl⟩
    rw [subjSetBeq_iff]
    intro e
    have h1 : (Plan.make fot (raws.map .raw) inputs).subjects.map (fun s => s.primary)
        = raws := raw_primaries raws
    have h2 : (Plan.make fot (subs.map .already) inputs).subjects.map (fun s => s.primary)
        = raws := (already_primaries subs).trans h
    rw [h1, h2]

theorem claim_C10_witness :
    ([Subject.mk ⟨3, false, [], ⟨0, 3⟩⟩ (some ⟨4, false, [], ⟨0, 4⟩⟩)].map
        (fun s => s.primary) = [⟨3, false, [], ⟨0, 3⟩⟩]) ∧
    (Subject.as_subject (.already (Subject.as_subject (.raw ⟨3, false, [], ⟨0, 3⟩⟩)))
        = Subject.as_subject (.raw ⟨3, false, [], ⟨0, 3⟩⟩) ∧
      Plan.planEq (Plan.make (.func 0) ([⟨3, false, [], ⟨0, 3⟩⟩].map .raw) [])
        (Plan.make (.func 0)
          ([Subject.mk ⟨3, false, [], ⟨0, 3⟩⟩ (some ⟨4, false, [], ⟨0, 4⟩⟩)].map .already) [])
        = true) :=
  ⟨by decide,
    claim_C10 (.raw ⟨3, false, [], ⟨0, 3⟩⟩) (.func 0) []
      [⟨3, false, [], ⟨0, 3⟩⟩]
      [Subject.mk ⟨3, false, [], ⟨0, 3⟩⟩ (some ⟨4, false, [], ⟨0, 4⟩⟩)] (by decide)⟩

/-- Source variants of a `ProductGraph` node.  `SourceNone` and `SourceOR` are
plain Python objects compared by identity; the `oid` field carries that
identity (every construction site draws a fresh value). -/
inductive Source where
  | sourceTask (task : Nat) (clause : List Select)
  | sourceNative (value : PValue)
  | sourceNone (oid : Nat)
  | sourceOR (oid : Nat)
deriving DecidableEq

/-- Embeds the namedtuple `ProductGraph.Node(subject, product, source)`. -/
structure Node where
  subject : Entity
  product : Nat
  source : Source
deriving DecidableEq

/-- Embeds `Node.key`. -/
def Node.key (n : Node) : Entity × Nat := (n.subject, n.product)

/-- Embeds `ProductGraph`: `nodes` maps registered nodes to promise ids in
insertion order (`self._nodes`), `adjacencies` is the defaultdict of ordered
dependency sets (`self._adjacencies`). -/
structure ProductGraph where
  nodes : List (Node × Nat)
  adjacencies : List (Node × List Node)
deriving DecidableEq

/-- Fresh `ProductGraph()`. -/
def ProductGraph.empty : ProductGraph := ⟨[], []⟩

/-- Embeds `ProductGraph.exists_node`. -/
def ProductGraph.exists_node (g : ProductGraph) (n : Node) : Bool :=
  g.nodes.any (fun m => m.1 == n)

/-- Embeds `ProductGraph.add_node`.  The `isinstance` check is type-level; the
duplicate check raises `ValueError` (the message expression of the source is
abstracted). -/
def ProductGraph.add_node (g : ProductGraph) (n : Node) (pid : Nat) :
    Except String ProductGraph :=
  if g.exists_node n then .error "already registered as a Node"
  else .ok { g with nodes := g.nodes ++ [(n, pid)] }

/-- Adjacency list of a node, with the defaultdict default of an empty ordered
set. -/
def ProductGraph.adjOf (g : ProductGraph) (n : Node) : List Node :=
  match g.adjacencies.find? (fun e => e.1 == n) with
  | some e => e.2
  | none => []

/-- Inserts `dst` into the ordered dependency set of `src` (OrderedSet add:
append when absent). -/
def addAdj : List (Node × List Node) → Node → Node → List (Node × List Node)
  | [], src, dst => [(src, [dst])]
  | e :: es, src, dst =>
      if e.1 == src then (e.1, if dst ∈ e.2 then e.2 else e.2 ++ [dst]) :: es
      else e :: addAdj es src dst

/-- Embeds `ProductGraph.add_edge`: `_validate_present` on both endpoints,
then record the edge. -/
def ProductGraph.add_edge (g : ProductGraph) (src dst : Node) :
    Except String ProductGraph :=
  if !g.exists_node src then .error "src is not registered as a Node"
  else if !g.exists_node dst then .error "dst is not registered as a Node"
  else .ok { g with adjacencies := addAdj g.adjacencies src dst }

/-- Return values of `ProductGraph._node_state`, which are heterogeneous in
the source: the class object `StateUnsatisfiable` for a `None` source, and
plain booleans otherwise. -/
inductive PyState where
  | stateUnsatisfiable
  | pyBool (b : Bool)
deriving DecidableEq

/-- Embeds `ProductGraph._node_state`.  The recursive calls
`self._is_satisfiable(dep_node)` appear as the oracle `sat`; the final
`ValueError` branch is unreachable because the source variants are closed. -/
def ProductGraph._node_state (g : ProductGraph) (sat : Node → Bool) (n : Node) : PyState :=
  match n.source with
  | .sourceNone _ => .stateUnsatisfiable
  | .sourceNative _ => .pyBool true
  | .sourceOR _ => .pyBool ((g.adjOf n).any sat)
  | .sourceTask _ _ => .pyBool ((g.adjOf n).all sat)

/-- Satisfiability of a node.

Modelled from the spec: `_is_satisfiable` is called by `_node_state`,
`sources_for` and `products_for` but is defined nowhere in the source file.
Spec section 4.1 describes satisfiability as the recursive evaluation of
`_node_state` over a DAG, a node being satisfiable exactly when its state is
Satisfied; the fuel argument bounds the recursion depth of the embedding. -/
def ProductGraph._is_satisfiable (g : ProductGraph) : Nat → Node → Bool
  | 0, _ => false
  | fuel + 1, n =>
      match g._node_state (g._is_satisfiable fuel) n with
      | .stateUnsatisfiable => false
      | .pyBool b => b

/-- Embeds the inner recursion of `consumes_product` in
`ProductGraph.sources_for`: does some dependency subtree of the node contain
a node producing the type of the consumed product. -/
def ProductGraph.consumesRec (g : ProductGraph) (ctype : Nat) : Nat → Node → Bool
  | 0, _ => false
  | fuel + 1, n =>
      (g.adjOf n).any (fun dep => dep.product == ctype || g.consumesRec ctype fuel dep)

/-- Embeds `consumes_product`: vacuously true without a consumed product. -/
def ProductGraph.consumes_product (g : ProductGraph) (consumed : Option PValue)
    (fuel : Nat) (n : Node) : Bool :=
  match consumed with
  | none => true
  | some c => g.consumesRec c.ptype fuel n

/-- Embeds `ProductGraph.sources_for`: yield the source of every non-OR node
at the given (subject, product) key that is satisfiable and consumes the
given configuration. -/
def ProductGraph.sources_for (g : ProductGraph) (subject : Entity) (product : Nat)
    (consumed : Option PValue) (fuel : Nat) : List Source :=
  g.nodes.filterMap (fun e =>
    match e.1.source with
    | .sourceOR _ => none
    | _ =>
        if e.1.subject == subject && e.1.product == product &&
            g._is_satisfiable fuel e.1 && g.consumes_product consumed fuel e.1
        then some e.1.source else none)

/-- C1: satisfiability follows the four source-kind rules: a None-sourced
node is never satisfiable, a Native-sourced node always is, an Or-sourced
node is satisfiable iff some adjacent dependency node is (at the next
recursion depth), and a Task-sourced node is satisfiable iff all adjacent
dependency nodes are. -/
theorem claim_C1 (g : ProductGraph) (fuel : Nat) (n : Node) :
    (∀ i, n.source = .sourceNone i → g._is_satisfiable (fuel + 1) n = false) ∧
    (∀ v, n.source = .sourceNative v → g._is_satisfiable (fuel + 1) n = true) ∧
    (∀ i, n.source = .sourceOR i →
      (g._is_satisfiable (fuel + 1) n = true ↔
        ∃ d ∈ g.adjOf n, g._is_satisfiable fuel d = true)) ∧
    (∀ t cl, n.source = .sourceTask t cl →
      (g._is_satisfiable (fuel + 1) n = true ↔
        ∀ d ∈ g.adjOf n, g._is_satisfiable fuel d = true)) := by
  refine ⟨?_, ?_, ?_, ?_⟩
  · intro i hs
    simp [ProductGraph._is_satisfiable, ProductGraph._node_state, hs]
  · intro v hs
    simp [ProductGraph._is_satisfiable, ProductGraph._node_state, hs]
  · intro i hs
    simp [ProductGraph._is_satisfiable, ProductGraph._node_state, hs, List.any_eq_true]
  · intro t cl hs
    simp [ProductGraph._is_satisfiable, ProductGraph._node_state, hs, List.all_eq_true]

/-- Sample entity for witnesses. -/
def cEnt : Entity := ⟨0, false, [], ⟨0, 0⟩⟩

/-- Sample nodes for the C1 witness: an Or node over one unsatisfiable and
one native alternative. -/
def cNodeOr : Node := ⟨cEnt, 0, .sourceOR 0⟩

def cNodeNone : Node := ⟨cEnt, 0, .sourceNone 1⟩

def cNodeNat : Node := ⟨cEnt, 0, .sourceNative ⟨0, 0⟩⟩

def cGraphOr : ProductGraph :=
  ⟨[(cNodeOr, 0), (cNodeNone, 1), (cNodeNat, 2)], [(cNodeOr, [cNodeNone, cNodeNat])]⟩

theorem claim_C1_witness :
    (cNodeOr.source = Source.sourceOR 0) ∧
    (cGraphOr._is_satisfiable 2 cNodeOr = true ↔
      ∃ d ∈ cGraphOr.adjOf cNodeOr, cGraphOr._is_satisfiable 1 d = true) :=
  ⟨rfl, (claim_C1 cGraphOr 1 cNodeOr).2.2.1 0 rfl⟩

/-- C9: `add_node` registers a node exactly once, a duplicate registration
fails with an error and produces no graph, and `add_edge` succeeds exactly
when both endpoints are already registered. -/
theorem claim_C9 (g : ProductGraph) (n src dst : Node) (pid : Nat) :
    (g.exists_node n = true → g.add_node n pid = .error "already registered as a Node") ∧
    (g.exists_node n = false →
      g.add_node n pid = .ok ⟨g.nodes ++ [(n, pid)], g.adjacencies⟩ ∧
      (ProductGraph.mk (g.nodes ++ [(n, pid)]) g.adjacencies).exists_node n = true) ∧
    (g.exists_node src = false → ∃ msg, g.add_edge src dst = .error msg) ∧
    (g.exists_node dst = false → ∃ msg, g.add_edge src dst = .error msg) ∧
    ((∃ g2, g.add_edge src dst = .ok g2) →
      g.exists_node src = true ∧ g.exists_node dst = true) := by
  refine ⟨?_, ?_, ?_, ?_, ?_⟩
  · intro h
    simp [ProductGraph.add_node, h]
  · intro h
    constructor
    · simp [ProductGraph.add_node, h]
    · simp [ProductGraph.exists_node]
  · intro h
    exact ⟨"src is not registered as a Node", by simp [ProductGraph.add_edge, h]⟩
  · intro h
    cases hsrc : g.exists_node src with
    | false => exact ⟨"src is not registered as a Node", by simp [ProductGraph.add_edge, hsrc]⟩
    | true => exact ⟨"dst is not registered as a Node", by simp [ProductGraph.add_edge, hsrc, h]⟩
  · rintro ⟨g2, hok⟩
    cases hsrc : g.exists_node src with
    | false => simp [ProductGraph.add_edge, hsrc] at hok
    | true =>
      cases hdst : g.exists_node dst with
      | false => simp [ProductGraph.add_edge, hsrc, hdst] at hok
      | true => exact ⟨rfl, rfl⟩

theorem claim_C9_witness :
    ((ProductGraph.mk [(cNodeNat, 0)] []).exists_node cNodeNat = true) ∧
    ((ProductGraph.mk [(cNodeNat, 0)] []).exists_node cNodeNone = false) ∧
    ((ProductGraph.mk [(cNodeNat, 0)] []).add_node cNodeNat 1 =
      .error "already registered as a Node") ∧
    (∃ msg, (ProductGraph.mk [(cNodeNat, 0)] []).add_edge cNodeNone cNodeNat = .error msg) :=
  ⟨by decide, by decide,
    (claim_C9 (ProductGraph.mk [(cNodeNat, 0)] []) cNodeNat cNodeNone cNodeNat 1).1 (by decide),
    (claim_C9 (ProductGraph.mk [(cNodeNat, 0)] []) cNodeNat cNodeNone cNodeNat 1).2.2.1 (by decide)⟩

/-- Task registration triple (output product type, ordered input requirement
clause, task), as consumed by the `Planners` constructor. -/
structure TaskTriple where
  output_type : Nat
  input_type_requirements : List Select
  task : Nat
deriving DecidableEq

/-- Embeds the `self._tasks[product_type]` index built by
`Planners.__init__`: the set of (task, clause) pairs registered for an output
type (set semantics collapse duplicate registrations; Python set iteration
order is unspecified, registration order is used here). -/
def Planners.tasksFor (tasks : List TaskTriple) (pt : Nat) : List (Nat × List Select) :=
  (tasks.filterMap (fun t =>
    if t.output_type == pt then some (t.task, t.input_type_requirements) else none)).dedup

/-- External build graph collaborator.  `resolve` embeds
`build_graph.resolve(address)`.

Modelled from the spec: `deps` stands for `Subject.iter_dependencies(subject,
configuration)` called by `_select_subjects`, which is defined nowhere in the
source (the file only defines `iter_configured_dependencies` with a different
signature); spec section 6 describes the collaborator returning the declared
dependencies of an entity, optionally filtered by a configuration. -/
structure BuildGraph where
  resolve : Nat → Entity
  deps : Entity → Option PValue → List Entity

/-- Embeds `Planners._node_sources`: one Native source per native product of
matching type, one Task source per registered task for the type, and a single
fresh None source when neither applies.  Returns the updated freshness
counter. -/
def Planners._node_sources (tasks : List TaskTriple) (subject : Entity)
    (product_type : Nat) (fresh : Nat) : List Source × Nat :=
  let natives := (Subject.native_products_for_subject subject).filterMap
    (fun p => if p.ptype == product_type then some (Source.sourceNative p) else none)
  let taskSources := (Planners.tasksFor tasks product_type).map
    (fun t => Source.sourceTask t.1 t.2)
  let sources := natives ++ taskSources
  if sources.isEmpty then ([Source.sourceNone fresh], fresh + 1) else (sources, fresh)

/-- Embeds `Planners._select_subjects`.  The final `ValueError` branch is
unreachable with closed selector variants. -/
def Planners._select_subjects (bg : BuildGraph) (sel : Selector) (subject : Entity) :
    List Entity :=
  match sel with
  | .subject => [subject]
  | .dependencies config => bg.deps subject config
  | .literalSubject addr => [bg.resolve addr]

/-- State threaded through graph expansion: the graph under construction and
a freshness counter supplying promise ids and identities of `SourceNone` and
`SourceOR` objects. -/
structure ExpandState where
  graph : ProductGraph
  fresh : Nat
deriving DecidableEq

mutual

/-- Embeds `Planners._expand_node`, and also stands for the calls to
`self._populate_node`.

Modelled from the spec: `product_graph` and `_expand_node` call
`self._populate_node`, which is defined nowhere in the source; spec section
4.2 names `_expand_node` as the recursive population step, so those calls are
read as recursive calls of `_expand_node`. -/
def Planners._expand_node (tasks : List TaskTriple) (bg : BuildGraph) :
    Nat → Node → ExpandState → Except String ExpandState
  | 0, _, _ => .error "fuel exhausted"
  | fuel + 1, node, st =>
    if st.graph.exists_node node then .ok st
    else
      match st.graph.add_node node st.fresh with
      | .error msg => .error msg
      | .ok g =>
        let st1 : ExpandState := ⟨g, st.fresh + 1⟩
        match node.source with
        | .sourceNone _ => .ok st1
        | .sourceNative _ => .ok st1
        | .sourceTask _ clause => Planners.expandClause tasks bg fuel node clause st1
        | .sourceOR _ => .error "Unsupported Source type"
termination_by fuel _ _ => (fuel, 0, 0)

/-- Iterates `for dep_select in node.source.clause` of `_expand_node`. -/
def Planners.expandClause (tasks : List TaskTriple) (bg : BuildGraph) :
    Nat → Node → List Select → ExpandState → Except String ExpandState
  | _, _, [], st => .ok st
  | fuel, node, sel :: rest, st =>
    match Planners.expandSelect tasks bg fuel node sel st with
    | .error msg => .error msg
    | .ok st1 => Planners.expandClause tasks bg fuel node rest st1
termination_by fuel _ l _ => (fuel, 4, l.length)

/-- Resolves the subjects of one Select of the clause. -/
def Planners.expandSelect (tasks : List TaskTriple) (bg : BuildGraph) :
    Nat → Node → Select → ExpandState → Except String ExpandState
  | fuel, node, sel, st =>
      Planners.expandSubjects tasks bg fuel node sel
        (Planners._select_subjects bg sel.selector node.subject) st
termination_by fuel _ _ _ => (fuel, 3, 0)

/-- Iterates `for dep_subject in self._select_subjects(...)` of
`_expand_node`: computes the dependency sources, introduces a fresh `SourceOR`
parent when more than one source exists (wiring `node -> parent` first, as
the source does), then populates each dependency source. -/
def Planners.expandSubjects (tasks : List TaskTriple) (bg : BuildGraph) :
    Nat → Node → Select → List Entity → ExpandState → Except String ExpandState
  | _, _, _, [], st => .ok st
  | fuel, node, sel, dep_subject :: rest, st =>
    let ns := Planners._node_sources tasks dep_subject sel.product st.fresh
    let st1 : ExpandState := ⟨st.graph, ns.2⟩
    let res : Except String ExpandState :=
      if ns.1.length > 1 then
        let parent : Node := ⟨dep_subject, sel.product, .sourceOR st1.fresh⟩
        let st2 : ExpandState := ⟨st1.graph, st1.fresh + 1⟩
        match st2.graph.add_edge node parent with
        | .error msg => .error msg
        | .ok g =>
            Planners.expandSources tasks bg fuel parent dep_subject sel.product ns.1
              ⟨g, st2.fresh⟩
      else
        Planners.expandSources tasks bg fuel node dep_subject sel.product ns.1 st1
    match res with
    | .error msg => .error msg
    | .ok st3 => Planners.expandSubjects tasks bg fuel node sel rest st3
termination_by fuel _ _ l _ => (fuel, 2, l.length)

/-- Iterates `for dep_source in dep_sources` of `_expand_node`: populate the
dependency node, then link it under the parent. -/
def Planners.expandSources (tasks : List TaskTriple) (bg : BuildGraph) :
    Nat → Node → Entity → Nat → List Source → ExpandState → Except String ExpandState
  | _, _, _, _, [], st => .ok st
  | fuel, parent, dep_subject, prod, src :: rest, st =>
    let dep_node : Node := ⟨dep_subject, prod, src⟩
    match Planners._expand_node tasks bg fuel dep_node st with
    | .error msg => .error msg
    | .ok st1 =>
      match st1.graph.add_edge parent dep_node with
      | .error msg => .error msg
      | .ok g => Planners.expandSources tasks bg fuel parent dep_subject prod rest ⟨g, st1.fresh⟩
termination_by fuel _ _ _ l _ => (fuel, 1, l.length)

end

/-- Iterates `for dep_source in dep_sources` of `Planners.product_graph`:
populate each root dependency node and, when a `SourceOR` parent was
synthesized, wire `parent -> dep_node`. -/
def Planners.pgSources (tasks : List TaskTriple) (bg : BuildGraph) (fuel : Nat)
    (parent : Option Node) (subject : Entity) (product : Nat) :
    List Source → ExpandState → Except String ExpandState
  | [], st => .ok st
  | src :: rest, st =>
    let dep_node : Node := ⟨subject, product, src⟩
    match Planners._expand_node tasks bg fuel dep_node st with
    | .error msg => .error msg
    | .ok st1 =>
      match parent with
      | none => Planners.pgSources tasks bg fuel parent subject product rest st1
      | some pn =>
        match st1.graph.add_edge pn dep_node with
        | .error msg => .error msg
        | .ok g => Planners.pgSources tasks bg fuel parent subject product rest ⟨g, st1.fresh⟩

/-- Iterates `for product in root_products` of `Planners.product_graph`. -/
def Planners.pgProducts (tasks : List TaskTriple) (bg : BuildGraph) (fuel : Nat)
    (subject : Entity) : List Nat → ExpandState → Except String ExpandState
  | [], st => .ok st
  | product :: rest, st =>
    let ns := Planners._node_sources tasks subject product st.fresh
    let st1 : ExpandState := ⟨st.graph, ns.2⟩
    let parent : Option Node :=
      if ns.1.length > 1 then some ⟨subject, product, .sourceOR st1.fresh⟩ else none
    let st2 : ExpandState :=
      if ns.1.length > 1 then ⟨st1.graph, st1.fresh + 1⟩ else st1
    match Planners.pgSources tasks bg fuel parent subject product ns.1 st2 with
    | .error msg => .error msg
    | .ok st3 => Planners.pgProducts tasks bg fuel subject rest st3

/-- Iterates `for subject in root_subjects` of `Planners.product_graph`. -/
def Planners.pgSubjects (tasks : List TaskTriple) (bg : BuildGraph) (fuel : Nat)
    (root_products : List Nat) : List Entity → ExpandState → Except String ExpandState
  | [], st => .ok st
  | subject :: rest, st =>
    match Planners.pgProducts tasks bg fuel subject root_products st with
    | .error msg => .error msg
    | .ok st1 => Planners.pgSubjects tasks bg fuel root_products rest st1

/-- Embeds `Planners.product_graph`: bootstrap a product graph for the root
subjects and root products. -/
def Planners.product_graph (tasks : List TaskTriple) (bg : BuildGraph) (fuel : Nat)
    (root_subjects : List Entity) (root_products : List Nat) :
    Except String ProductGraph :=
  match Planners.pgSubjects tasks bg fuel root_products root_subjects ⟨.empty, 0⟩ with
  | .error msg => .error msg
  | .ok st => .ok st.graph

/-- C7: `_node_sources` yields one Native source per native product of
matching type plus one Task source per registered task for the type; when
that combination is empty it yields exactly one fresh None source, so the
result is never empty. -/
theorem claim_C7 (tasks : List TaskTriple) (subject : Entity) (pt fresh : Nat) :
    (Planners._node_sources tasks subject pt fresh).1 ≠ [] ∧
    ((Subject.native_products_for_subject subject).filterMap
          (fun p => if p.ptype == pt then some (Source.sourceNative p) else none) ++
        (Planners.tasksFor tasks pt).map (fun t => Source.sourceTask t.1 t.2) ≠ [] →
      (Planners._node_sources tasks subject pt fresh).1 =
        (Subject.native_products_for_subject subject).filterMap
            (fun p => if p.ptype == pt then some (Source.sourceNative p) else none) ++
          (Planners.tasksFor tasks pt).map (fun t => Source.sourceTask t.1 t.2)) ∧
    ((Subject.native_products_for_subject subject).filterMap
          (fun p => if p.ptype == pt then some (Source.sourceNative p) else none) ++
        (Planners.tasksFor tasks pt).map (fun t => Source.sourceTask t.1 t.2) = [] →
      (Planners._node_sources tasks subject pt fresh).1 = [Source.sourceNone fresh]) := by
  by_cases hE : ((Subject.native_products_for_subject subject).filterMap
        (fun p => if p.ptype == pt then some (Source.sourceNative p) else none) ++
      (Planners.tasksFor tasks pt).map (fun t => Source.sourceTask t.1 t.2)) = []
  · have h1 : Planners._node_sources tasks subject pt fresh
        = ([Source.sourceNone fresh], fresh + 1) := by
      show (if ((Subject.native_products_for_subject subject).filterMap
            (fun p => if p.ptype == pt then some (Source.sourceNative p) else none) ++
          (Planners.tasksFor tasks pt).map (fun t => Source.sourceTask t.1 t.2)).isEmpty
        then ([Source.sourceNone fresh], fresh + 1)
        else ((Subject.native_products_for_subject subject).filterMap
            (fun p => if p.ptype == pt then some (Source.sourceNative p) else none) ++
          (Planners.tasksFor tasks pt).map (fun t => Source.sourceTask t.1 t.2), fresh)) = _
      rw [hE]
      rfl
    rw [h1]
    exact ⟨by simp, fun h => absurd hE h, fun _ => rfl⟩
  · have h1 : Planners._node_sources tasks subject pt fresh
        = ((Subject.native_products_for_subject subject).filterMap
            (fun p => if p.ptype == pt then some (Source.sourceNative p) else none) ++
          (Planners.tasksFor tasks pt).map (fun t => Source.sourceTask t.1 t.2), fresh) := by
      show (if ((Subject.native_products_for_subject subject).filterMap
            (fun p => if p.ptype == pt then some (Source.sourceNative p) else none) ++
          (Planners.tasksFor tasks pt).map (fun t => Source.sourceTask t.1 t.2)).isEmpty
        then ([Source.sourceNone fresh], fresh + 1)
        else ((Subject.native_products_for_subject subject).filterMap
            (fun p => if p.ptype == pt then some (Source.sourceNative p) else none) ++
          (Planners.tasksFor tasks pt).map (fun t => Source.sourceTask t.1 t.2), fresh)) = _
      rw [if_neg]
      intro hc
      exact hE (List.isEmpty_iff.mp hc)
    rw [h1]
    exact ⟨hE, fun _ => rfl, fun h => absurd h hE⟩

theorem claim_C7_witness :
    ((Subject.native_products_for_subject cEnt).filterMap
          (fun p => if p.ptype == 9 then some (Source.sourceNative p) else none) ++
        (Planners.tasksFor [] 9).map (fun t => Source.sourceTask t.1 t.2) = []) ∧
    ((Planners._node_sources [] cEnt 9 5).1 ≠ [] ∧
      (Planners._node_sources [] cEnt 9 5).1 = [Source.sourceNone 5]) :=
  ⟨by decide,
    ⟨(claim_C7 [] cEnt 9 5).1, (claim_C7 [] cEnt 9 5).2.2 (by decide)⟩⟩

/-- Sample planner registry and entity for the C5 failing input: the entity
natively carries a product of type 0 and a task also produces type 0, so the
(subject, 0) key has two sources. -/
def cTasks : List TaskTriple := [⟨0, [], 7⟩]

def cBG : BuildGraph := ⟨fun _ => cEnt, fun _ _ => []⟩

/-- C5: expansion of an already-registered node is a no-op; but on any key
with more than one source the synthesized Or node is never registered, so the
`add_edge` validation fails and graph construction errors instead of wiring
the Or node (evaluated here on the concrete two-source input). -/
theorem claim_C5 (tasks : List TaskTriple) (bg : BuildGraph) (fuel : Nat)
    (node : Node) (st : ExpandState) (h : st.graph.exists_node node = true) :
    Planners._expand_node tasks bg (fuel + 1) node st = .ok st ∧
    Planners.product_graph cTasks cBG 5 [cEnt] [0] =
      .error "src is not registered as a Node" := by
  constructor
  · unfold Planners._expand_node
    simp [h]
  · have hexp : Planners._expand_node [⟨0, [], 7⟩] cBG 5
        ⟨⟨0, false, [], ⟨0, 0⟩⟩, 0, .sourceNative ⟨0, 0⟩⟩ ⟨⟨[], []⟩, 1⟩ =
        .ok ⟨⟨[(⟨⟨0, false, [], ⟨0, 0⟩⟩, 0, .sourceNative ⟨0, 0⟩⟩, 1)], []⟩, 2⟩ := by
      unfold Planners._expand_node
      rfl
    unfold Planners.product_graph Planners.pgSubjects Planners.pgProducts Planners.pgSources
    simp [hexp, Planners._node_sources, Planners.tasksFor, Subject.native_products_for_subject,
      ProductGraph.empty, ProductGraph.add_edge, ProductGraph.exists_node, cTasks, cEnt]

theorem claim_C5_witness :
    ((ProductGraph.mk [(cNodeNat, 0)] []).exists_node cNodeNat = true) ∧
    (Planners._expand_node cTasks cBG 3 cNodeNat ⟨⟨[(cNodeNat, 0)], []⟩, 1⟩ =
        .ok ⟨⟨[(cNodeNat, 0)], []⟩, 1⟩ ∧
      Planners.product_graph cTasks cBG 5 [cEnt] [0] =
        .error "src is not registered as a Node") :=
  ⟨by decide, claim_C5 cTasks cBG 2 cNodeNat ⟨⟨[(cNodeNat, 0)], []⟩, 1⟩ (by decide)⟩

/-- Embeds the thread-future class `Promise`: optional success value,
optional failure, and the event flag (`threading.Event`). `init` is
`Promise.__init__`. -/
structure PromiseCell (α : Type) (ε : Type) where
  successV : Option α
  failureV : Option ε
  eventSet : Bool

/-- Fresh `Promise()`: both slots empty, event cleared. -/
def PromiseCell.init {α ε : Type} : PromiseCell α ε := ⟨none, none, false⟩

/-- Embeds `Promise.success`: store the value and set the event. -/
def PromiseCell.success {α ε : Type} (c : PromiseCell α ε) (v : α) : PromiseCell α ε :=
  ⟨some v, c.failureV, true⟩

/-- Embeds `Promise.failure`: store the exception and set the event. -/
def PromiseCell.failure {α ε : Type} (c : PromiseCell α ε) (e : ε) : PromiseCell α ε :=
  ⟨c.successV, some e, true⟩

/-- Embeds `Promise.get`: `none` models a blocked call (event not yet set);
once the event is set, the stored failure is raised if present, else the
stored success value (possibly Python None) is returned.  The call reads the
cell and never writes it. -/
def PromiseCell.get {α ε : Type} (c : PromiseCell α ε) : Option (Except ε (Option α)) :=
  if c.eventSet then
    some (match c.failureV with
      | some e => .error e
      | none => .ok c.successV)
  else none

/-- C8: the promise future is terminal once the single writer sets it: after
`success v` on a fresh promise every get returns `v`, after `failure e` every
get raises `e`, a fresh promise blocks every get, and both terminal states
have the event set (and `get` never mutates the cell, being a pure reader, so
later gets observe the same state). -/
theorem claim_C8 (α ε : Type) (v : α) (e : ε) :
    (PromiseCell.init.success v : PromiseCell α ε).get = some (.ok (some v)) ∧
    (PromiseCell.init.failure e : PromiseCell α ε).get = some (.error e) ∧
    (PromiseCell.init : PromiseCell α ε).get = none ∧
    (PromiseCell.init.success v : PromiseCell α ε).eventSet = true ∧
    (PromiseCell.init.failure e : PromiseCell α ε).eventSet = true :=
  ⟨rfl, rfl, rfl, rfl, rfl⟩

/-- Scheduling error taxonomy (`SchedulingError` and subclasses); each
constructor carries the payload of the corresponding raise site. -/
inductive SchedErr where
  | noProducers (product_type : Nat) (subject : Entity) (configuration : Option PValue)
  | conflictingProducers (product_type : Nat) (subject : Entity) (plans : List Plan)
  | invalidRegistration
  | schedulingError
  | unsupportedSource
deriving DecidableEq

/-- Embeds `ProductMapper` state: the `self._promises` table and the
`self._plans_by_product_type_by_planner` registry, flattened to (planner tag,
product type, plan) entries in insertion order. -/
structure ProductMapper where
  promisesTable : List (PromiseKey × Plan)
  plans_registry : List (Nat × Nat × Plan)
deriving DecidableEq

/-- Fresh mapper. -/
def ProductMapper.emptyMapper : ProductMapper := ⟨[], []⟩

/-- Dict update: replace the entry of an existing key, else append. -/
def setEntry : List (PromiseKey × Plan) → PromiseKey → Plan → List (PromiseKey × Plan)
  | [], k, p => [(k, p)]
  | e :: es, k, p => if e.1 == k then (k, p) :: es else e :: setEntry es k p

/-- Dict lookup (`self._promises.get(promise)`). -/
def promisedTable (t : List (PromiseKey × Plan)) (k : PromiseKey) : Option Plan :=
  (t.find? (fun e => e.1 == k)).map (fun e => e.2)

/-- Embeds `ProductMapper.promised`. -/
def ProductMapper.promised (m : ProductMapper) (k : PromiseKey) : Option Plan :=
  promisedTable m.promisesTable k

/-- One iteration of the subject loop of `_register_promises`: build the
keyed promise for the subject, remember it when the subject is the primary,
and index the plan under the promise. -/
def regStep (product_type : Nat) (plan : Plan) (primary_subject : Option Entity)
    (configuration : Option PValue)
    (acc : List (PromiseKey × Plan) × Option PromiseKey) (s : Subject) :
    List (PromiseKey × Plan) × Option PromiseKey :=
  let promise : PromiseKey := ⟨product_type, s.primary, configuration⟩
  (setEntry acc.1 promise plan,
    if primary_subject = some s.primary then some promise else acc.2)

/-- Embeds `ProductMapper._register_promises`: register the plan under every
subject it covers and return the promise key of the primary subject, failing
with `InvalidRegistrationError` when a primary subject was supplied but is
not among the subjects of the plan. -/
def ProductMapper._register_promises (m : ProductMapper) (product_type : Nat)
    (plan : Plan) (primary_subject : Option Entity) (configuration : Option PValue) :
    Except SchedErr (Option PromiseKey × ProductMapper) :=
  let res := plan.subjects.foldl
    (regStep product_type plan primary_subject configuration) (m.promisesTable, none)
  if primary_subject.isSome && res.2.isNone then .error .invalidRegistration
  else .ok (res.2, { m with promisesTable := res.1 })

/-- Oracle for task planners.

Modelled from the spec: `promise()` reads `source.planner.plan(self,
product_type, subject, configuration=configuration)`, but `SourceTask`
carries no planner field and class `TaskPlanner` is absent from the source;
spec section 4.3 describes each Task source delegating to the planner
associated with its task, which may return a plan or nothing (the None check
of the source).  The oracle is keyed by the task of the source. -/
structure PlannerOracle where
  plan : Nat → Nat → Entity → Option PValue → Option Plan

/-- Code of the library function `lift_native_product`. -/
def lift_native_product : Nat := 1000

/-- Kwarg name codes of the native identity plan (`subject=`,
`product_type=`). -/
def subjectKw : Nat := 0

def productTypeKw : Nat := 1

/-- The trivial identity plan a Native source becomes:
`Plan(func_or_task_type=lift_native_product, subjects=(subject,),
subject=subject, product_type=product_type)`. -/
def nativePlan (subject : Entity) (product_type : Nat) : Plan :=
  Plan.make (.func lift_native_product) [.raw subject]
    [(subjectKw, .obj subject.eid), (productTypeKw, .obj product_type)]

/-- Embeds the source loop of `promise()`: turn each source into a plan,
skipping Task sources whose planner yields none (the None check), and fail on
a source kind that is neither Native nor Task.  The planner tag pairs each
plan with the planner that produced it (0 stands for the fresh `NoPlanner()`
of a Native source, `t + 1` for the planner of task `t`). -/
def ProductMapper.collectPlans (oracle : PlannerOracle) (product_type : Nat)
    (subject : Entity) (configuration : Option PValue) :
    List Source → Except SchedErr (List (Nat × Plan))
  | [] => .ok []
  | src :: rest =>
    match src with
    | .sourceNative _ =>
        match ProductMapper.collectPlans oracle product_type subject configuration rest with
        | .error err => .error err
        | .ok ps => .ok ((0, nativePlan subject product_type) :: ps)
    | .sourceTask t _ =>
        match oracle.plan t product_type subject configuration with
        | some plan =>
            match ProductMapper.collectPlans oracle product_type subject configuration rest with
            | .error err => .error err
            | .ok ps => .ok ((t + 1, plan) :: ps)
        | none => ProductMapper.collectPlans oracle product_type subject configuration rest
    | _ => .error .unsupportedSource

/-- Embeds `ProductMapper.promise`.  Address resolution
(`self._graph.resolve`) happens upstream: subjects here are resolved
entities.  The keyed promise is built, the cache is consulted, then the
sources of the product are turned into plans; zero plans raise
`NoProducersError`, more than one raises `ConflictingProducersError`, and a
single plan is registered (an `InvalidRegistrationError` surfacing as a
generic `SchedulingError`). -/
def ProductMapper.promise (oracle : PlannerOracle) (g : ProductGraph) (fuel : Nat)
    (m : ProductMapper) (subject : Entity) (product_type : Nat)
    (configuration : Option PValue) : Except SchedErr (PromiseKey × ProductMapper) :=
  let promiseK : PromiseKey := ⟨product_type, subject, configuration⟩
  match m.promised promiseK with
  | some _ => .ok (promiseK, m)
  | none =>
    match ProductMapper.collectPlans oracle product_type subject configuration
        (g.sources_for subject product_type configuration fuel) with
    | .error err => .error err
    | .ok plans =>
      if plans.length > 1 then
        .error (.conflictingProducers product_type subject (plans.map (fun pr => pr.2)))
      else
        match plans with
        | [] => .error (.noProducers product_type subject configuration)
        | (planner, plan) :: _ =>
          match m._register_promises product_type plan (some subject) configuration with
          | .error _ => .error .schedulingError
          | .ok (none, _) => .error .schedulingError
          | .ok (some pk, m1) =>
              .ok (pk, { m1 with
                plans_registry := m1.plans_registry ++ [(planner, product_type, plan)] })

theorem promisedTable_setEntry_self (t : List (PromiseKey × Plan)) (k : PromiseKey)
    (p : Plan) : promisedTable (setEntry t k p) k = some p := by
  induction t with
  | nil => simp [setEntry, promisedTable]
  | cons e es ih =>
    by_cases he : e.1 = k
    · simp [setEntry, he, promisedTable]
    · simp only [setEntry, promisedTable]
      rw [if_neg (by simpa using he)]
      rw [List.find?_cons_of_neg _ (by simpa using he)]
      exact ih

theorem promisedTable_setEntry_other (t : List (PromiseKey × Plan)) (k pk : PromiseKey)
    (p : Plan) (hne : pk ≠ k) :
    promisedTable (setEntry t k p) pk = promisedTable t pk := by
  induction t with
  | nil =>
    simp only [setEntry, promisedTable]
    rw [List.find?_cons_of_neg _ (by simpa using (Ne.symm hne)), List.find?_nil]
  | cons e es ih =>
    by_cases he : e.1 = k
    · simp only [setEntry, promisedTable]
      rw [if_pos (by simpa using he)]
      rw [List.find?_cons_of_neg _ (by simpa using (Ne.symm hne))]
      rw [show (e :: es).find? (fun e => e.1 == pk) = es.find? (fun e => e.1 == pk) from
        List.find?_cons_of_neg _ (by simp [he]; exact fun hc => hne (hc ▸ he.symm ▸ rfl))]
    · simp only [setEntry, promisedTable]
      rw [if_neg (by simpa using he)]
      by_cases hpk : e.1 = pk
      · rw [List.find?_cons_of_pos _ (by simpa using hpk),
          List.find?_cons_of_pos _ (by simpa using hpk)]
      · rw [List.find?_cons_of_neg _ (by simpa using hpk),
          List.find?_cons_of_neg _ (by simpa using hpk)]
        exact ih

/-- Invariant of the registration fold: whichever primary key it reports is
the canonical key of the primary subject and maps to the registered plan. -/
theorem regFold_inv (pt : Nat) (plan : Plan) (subj : Entity) (cfg : Option PValue) :
    ∀ (l : List Subject) (acc : List (PromiseKey × Plan) × Option PromiseKey),
      (∀ pk, acc.2 = some pk → pk = ⟨pt, subj, cfg⟩ ∧ promisedTable acc.1 pk = some plan) →
      ∀ pk, (l.foldl (regStep pt plan (some subj) cfg) acc).2 = some pk →
        pk = ⟨pt, subj, cfg⟩ ∧
        promisedTable (l.foldl (regStep pt plan (some subj) cfg) acc).1 pk = some plan := by
  intro l
  induction l with
  | nil => intro acc hacc pk h; exact hacc pk h
  | cons s rest ih =>
    intro acc hacc pk h
    refine ih _ ?_ pk h
    intro pk' hpk'
    simp only [regStep] at hpk'
    by_cases hs : some subj = some s.primary
    · rw [if_pos hs] at hpk'
      injection hpk' with hpk2
      injection hs with hs2
      subst hpk2
      constructor
      · rw [hs2]
      · exact promisedTable_setEntry_self _ _ _
    · rw [if_neg hs] at hpk'
      obtain ⟨hk, hl⟩ := hacc pk' hpk'
      refine ⟨hk, ?_⟩
      show promisedTable (setEntry acc.1 ⟨pt, s.primary, cfg⟩ plan) pk' = some plan
      by_cases heq : pk' = (⟨pt, s.primary, cfg⟩ : PromiseKey)
      · rw [heq]; exact promisedTable_setEntry_self _ _ _
      · rw [promisedTable_setEntry_other _ _ _ _ heq]; exact hl

/-- C3: a cache-missing `promise()` call raises `NoProducersError` carrying
the product type, subject and configuration when resolution yields zero
plans; raises `ConflictingProducersError` listing every candidate plan when
it yields more than one; and returns a promise key only when it yields
exactly one. -/
theorem claim_C3 (oracle : PlannerOracle) (g : ProductGraph) (fuel : Nat)
    (m : ProductMapper) (subject : Entity) (pt : Nat) (config : Option PValue)
    (hmiss : m.promised ⟨pt, subject, config⟩ = none) :
    (ProductMapper.collectPlans oracle pt subject config
        (g.sources_for subject pt config fuel) = .ok [] →
      ProductMapper.promise oracle g fuel m subject pt config =
        .error (.noProducers pt subject config)) ∧
    (∀ ps, ProductMapper.collectPlans oracle pt subject config
        (g.sources_for subject pt config fuel) = .ok ps → ps.length > 1 →
      ProductMapper.promise oracle g fuel m subject pt config =
        .error (.conflictingProducers pt subject (ps.map (fun pr => pr.2)))) ∧
    (∀ k m1, ProductMapper.promise oracle g fuel m subject pt config = .ok (k, m1) →
      ∃ ps, ProductMapper.collectPlans oracle pt subject config
          (g.sources_for subject pt config fuel) = .ok ps ∧ ps.length = 1) := by
  refine ⟨?_, ?_, ?_⟩
  · intro hc
    unfold ProductMapper.promise
    dsimp only
    rw [hmiss, hc]
    rfl
  · intro ps hc hlen
    unfold ProductMapper.promise
    dsimp only
    rw [hmiss, hc]
    dsimp only
    simp only [if_pos hlen]
  · intro k m1 hok
    unfold ProductMapper.promise at hok
    dsimp only at hok
    rw [hmiss] at hok
    dsimp only at hok
    cases hc : ProductMapper.collectPlans oracle pt subject config
        (g.sources_for subject pt config fuel) with
    | error err => rw [hc] at hok; exact absurd hok (by simp)
    | ok ps =>
      rw [hc] at hok
      dsimp only at hok
      refine ⟨ps, rfl, ?_⟩
      by_cases hlen : ps.length > 1
      · rw [if_pos hlen] at hok; exact absurd hok (by simp)
      · rw [if_neg hlen] at hok
        cases ps with
        | nil => exact absurd hok (by simp)
        | cons pr rest =>
          simp only [List.length_cons]
          simp only [List.length_cons] at hlen
          omega

/-- Concrete graph with one satisfiable native node, for the mapper
witnesses. -/
def cGraphNat : ProductGraph := ⟨[(cNodeNat, 0)], []⟩

def cOracle : PlannerOracle := ⟨fun _ _ _ _ => none⟩

theorem claim_C3_witness :
    (ProductMapper.emptyMapper.promised ⟨9, cEnt, none⟩ = none) ∧
    (ProductMapper.collectPlans cOracle 9 cEnt none
        (ProductGraph.sources_for ⟨[], []⟩ cEnt 9 none 1) = .ok []) ∧
    ProductMapper.promise cOracle ⟨[], []⟩ 1 ProductMapper.emptyMapper cEnt 9 none =
      .error (.noProducers 9 cEnt none) :=
  ⟨rfl, rfl,
    (claim_C3 cOracle ⟨[], []⟩ 1 ProductMapper.emptyMapper cEnt 9 none rfl).1 rfl⟩

/-- C6: a successful `promise()` call leaves its canonical key cached, and
any repeated call with the same subject, product type and configuration on
the resulting state returns the same key and the unchanged state without
consulting the product graph or any planner (memoization). -/
theorem claim_C6 (oracle : PlannerOracle) (g : ProductGraph) (fuel : Nat)
    (m m1 : ProductMapper) (subject : Entity) (pt : Nat) (config : Option PValue)
    (k : PromiseKey)
    (h : ProductMapper.promise oracle g fuel m subject pt config = .ok (k, m1)) :
    k = ⟨pt, subject, config⟩ ∧
    (∃ plan, m1.promised k = some plan) ∧
    ∀ (oracle2 : PlannerOracle) (g2 : ProductGraph) (fuel2 : Nat),
      ProductMapper.promise oracle2 g2 fuel2 m1 subject pt config = .ok (k, m1) := by
  have main : k = (⟨pt, subject, config⟩ : PromiseKey) ∧ ∃ plan, m1.promised k = some plan := by
    unfold ProductMapper.promise at h
    dsimp only at h
    cases hcache : m.promised ⟨pt, subject, config⟩ with
    | some plan0 =>
      rw [hcache] at h
      simp only [Except.ok.injEq, Prod.mk.injEq] at h
      obtain ⟨hk, hm⟩ := h
      subst hk
      subst hm
      exact ⟨rfl, ⟨plan0, hcache⟩⟩
    | none =>
      rw [hcache] at h
      cases hc : ProductMapper.collectPlans oracle pt subject config
          (g.sources_for subject pt config fuel) with
      | error err => rw [hc] at h; exact absurd h (by simp)
      | ok plans =>
        rw [hc] at h
        dsimp only at h
        by_cases hlen : plans.length > 1
        · rw [if_pos hlen] at h; exact absurd h (by simp)
        · rw [if_neg hlen] at h
          cases plans with
          | nil => exact absurd h (by simp)
          | cons pr rest =>
            obtain ⟨planner, plan⟩ := pr
            dsimp only at h
            unfold ProductMapper._register_promises at h
            dsimp only at h
            by_cases hmain : (some subject).isSome &&
                (plan.subjects.foldl (regStep pt plan (some subject) config)
                  (m.promisesTable, none)).2.isNone
            · rw [if_pos hmain] at h; exact absurd h (by simp)
            · rw [if_neg hmain] at h
              cases hfold : (plan.subjects.foldl (regStep pt plan (some subject) config)
                  (m.promisesTable, none)).2 with
              | none => rw [hfold] at h; exact absurd h (by simp)
              | some pk =>
                rw [hfold] at h
                simp only [Except.ok.injEq, Prod.mk.injEq] at h
                obtain ⟨hk, hm⟩ := h
                subst hk
                have hinv := regFold_inv pt plan subject config plan.subjects
                  (m.promisesTable, none) (by intro pk2 hpk2; exact absurd hpk2 (by simp))
                  pk hfold
                refine ⟨hinv.1, ⟨plan, ?_⟩⟩
                rw [← hm]
                show promisedTable (plan.subjects.foldl (regStep pt plan (some subject) config)
                    (m.promisesTable, none)).1 pk = some plan
                exact hinv.2
  refine ⟨main.1, main.2, ?_⟩
  intro oracle2 g2 fuel2
  obtain ⟨plan, hplan⟩ := main.2
  unfold ProductMapper.promise
  dsimp only
  rw [← main.1, hplan]

theorem claim_C6_witness :
    (ProductMapper.promise cOracle cGraphNat 1 ProductMapper.emptyMapper cEnt 0 none =
      .ok (⟨0, cEnt, none⟩,
        ⟨[(⟨0, cEnt, none⟩, nativePlan cEnt 0)], [(0, 0, nativePlan cEnt 0)]⟩)) ∧
    ((⟨0, cEnt, none⟩ : PromiseKey) = ⟨0, cEnt, none⟩ ∧
      (∃ plan, (ProductMapper.mk [(⟨0, cEnt, none⟩, nativePlan cEnt 0)]
          [(0, 0, nativePlan cEnt 0)]).promised ⟨0, cEnt, none⟩ = some plan) ∧
      ∀ (oracle2 : PlannerOracle) (g2 : ProductGraph) (fuel2 : Nat),
        ProductMapper.promise oracle2 g2 fuel2
            (ProductMapper.mk [(⟨0, cEnt, none⟩, nativePlan cEnt 0)]
              [(0, 0, nativePlan cEnt 0)]) cEnt 0 none =
          .ok (⟨0, cEnt, none⟩,
            ⟨[(⟨0, cEnt, none⟩, nativePlan cEnt 0)], [(0, 0, nativePlan cEnt 0)]⟩)) :=
  ⟨rfl, claim_C6 cOracle cGraphNat 1 ProductMapper.emptyMapper
    (ProductMapper.mk [(⟨0, cEnt, none⟩, nativePlan cEnt 0)] [(0, 0, nativePlan cEnt 0)])
    cEnt 0 none ⟨0, cEnt, none⟩ rfl⟩

mutual

/-- Embeds `ExecutionGraph._walk_plan`: look up the plan promised for the
key, skip it when an equal plan (by the `Plan` equality contract) was already
seen, otherwise mark it seen, recurse into every promise of its inputs, then
yield the (key, plan) pair itself (post-order).  A key with no registered
plan errors (Python crashes reading `None.promises` after adding `None` to
the set).  Fuel bounds the descent depth and is consumed only when a new plan
is entered. -/
def ExecutionGraph.walkPlan (mapper : List (PromiseKey × Plan)) :
    Nat → PromiseKey → List Plan → Except String (List Plan × List (PromiseKey × Plan))
  | 0, _, _ => .error "fuel exhausted"
  | fuel + 1, k, seen =>
    match promisedTable mapper k with
    | none => .error "promised plan is None"
    | some plan =>
      if seen.any (fun q => Plan.planEq q plan) then .ok (seen, [])
      else
        match ExecutionGraph.walkKeys mapper fuel plan.promList (plan :: seen) with
        | .error msg => .error msg
        | .ok (seen1, out) => .ok (seen1, out ++ [(k, plan)])
termination_by fuel _ _ => (fuel, 0)

/-- Iterates `_walk_plan` over a list of promise keys threading the seen set,
as both the loop over `plan.promises` and the loop of `walk()` over the root
promises do. -/
def ExecutionGraph.walkKeys (mapper : List (PromiseKey × Plan)) :
    Nat → List PromiseKey → List Plan →
    Except String (List Plan × List (PromiseKey × Plan))
  | _, [], seen => .ok (seen, [])
  | fuel, k :: ks, seen =>
    match ExecutionGraph.walkPlan mapper fuel k seen with
    | .error msg => .error msg
    | .ok (seen1, out1) =>
      match ExecutionGraph.walkKeys mapper fuel ks seen1 with
      | .error msg => .error msg
      | .ok (seen2, out2) => .ok (seen2, out1 ++ out2)
termination_by fuel ks _ => (fuel, ks.length + 1)

end

/-- Embeds `ExecutionGraph.walk`: depth-first post-order walk over the root
promises with one global seen set, starting empty.  One descent unit of fuel
per distinct plan suffices, so the table length plus one is enough. -/
def ExecutionGraph.walk (mapper : List (PromiseKey × Plan))
    (root_promises : List PromiseKey) : Except String (List (PromiseKey × Plan)) :=
  match ExecutionGraph.walkKeys mapper (mapper.length + 1) root_promises [] with
  | .error msg => .error msg
  | .ok (_, out) => .ok out

/-- Direct dependency of plan `p` on plan `q` through the promises table:
some promise among the inputs of `p` is registered to `q`. -/
def DirectDep (mapper : List (PromiseKey × Plan)) (p q : Plan) : Prop :=
  ∃ k, k ∈ p.promList ∧ promisedTable mapper k = some q

/-- Keys transitively reachable from a key through the promises of
registered plans. -/
inductive ReachKey (mapper : List (PromiseKey × Plan)) : PromiseKey → PromiseKey → Prop where
  | refl (k : PromiseKey) : ReachKey mapper k k
  | step {k k1 k2 : PromiseKey} {p : Plan} : ReachKey mapper k k1 →
      promisedTable mapper k1 = some p → k2 ∈ p.promList → ReachKey mapper k k2

/-- Plans reachable from the root keys. -/
inductive ReachablePlan (mapper : List (PromiseKey × Plan)) (roots : List PromiseKey) :
    Plan → Prop where
  | root {k : PromiseKey} {p : Plan} : k ∈ roots → promisedTable mapper k = some p →
      ReachablePlan mapper roots p
  | step {p q : Plan} {k : PromiseKey} : ReachablePlan mapper roots p →
      k ∈ p.promList → promisedTable mapper k = some q → ReachablePlan mapper roots q

/-- Membership modulo the `Plan` equality contract. -/
def memEq (S : List Plan) (p : Plan) : Prop :=
  ∃ r ∈ S, Plan.planEq r p = true

theorem memEq_cons (a : Plan) (S : List Plan) (p : Plan) :
    memEq (a :: S) p ↔ Plan.planEq a p = true ∨ memEq S p := by
  unfold memEq
  simp [List.mem_cons]

theorem memEq_append (S T : List Plan) (p : Plan) :
    memEq (S ++ T) p ↔ memEq S p ∨ memEq T p := by
  unfold memEq
  constructor
  · rintro ⟨r, hr, he⟩
    rcases List.mem_append.mp hr with h | h
    · exact Or.inl ⟨r, h, he⟩
    · exact Or.inr ⟨r, h, he⟩
  · rintro (⟨r, hr, he⟩ | ⟨r, hr, he⟩)
    · exact ⟨r, List.mem_append.mpr (Or.inl hr), he⟩
    · exact ⟨r, List.mem_append.mpr (Or.inr hr), he⟩

theorem memEq_perm {S T : List Plan} (h : S.Perm T) (p : Plan) :
    memEq S p ↔ memEq T p := by
  unfold memEq
  constructor
  · rintro ⟨r, hr, he⟩; exact ⟨r, h.mem_iff.mp hr, he⟩
  · rintro ⟨r, hr, he⟩; exact ⟨r, h.mem_iff.mpr hr, he⟩

theorem memEq_any (S : List Plan) (p : Plan) :
    S.any (fun q => Plan.planEq q p) = true ↔ memEq S p := by
  unfold memEq
  simp [List.any_eq_true]

/-- Transfer of membership of a plan modulo the contract: an equal plan has
the same promises up to membership. -/
theorem memEq_of_planEq {S : List Plan} {p q : Plan} (hpq : Plan.planEq p q = true)
    (h : memEq S p) : memEq S q := by
  obtain ⟨r, hr, he⟩ := h
  exact ⟨r, hr, planEq_trans r p q he hpq⟩

theorem walkPlan_zero_inv (mapper : List (PromiseKey × Plan)) (k : PromiseKey)
    (seen : List Plan) (r : List Plan × List (PromiseKey × Plan))
    (h : ExecutionGraph.walkPlan mapper 0 k seen = .ok r) : False := by
  unfold ExecutionGraph.walkPlan at h
  exact absurd h (by simp)

theorem walkPlan_succ_inv (mapper : List (PromiseKey × Plan)) (f : Nat) (k : PromiseKey)
    (seen : List Plan) (r : List Plan × List (PromiseKey × Plan))
    (h : ExecutionGraph.walkPlan mapper (f + 1) k seen = .ok r) :
    ∃ plan, promisedTable mapper k = some plan ∧
      ((memEq seen plan ∧ r = (seen, [])) ∨
        (¬ memEq seen plan ∧ ∃ seen1 out,
          ExecutionGraph.walkKeys mapper f plan.promList (plan :: seen) = .ok (seen1, out) ∧
          r = (seen1, out ++ [(k, plan)]))) := by
  unfold ExecutionGraph.walkPlan at h
  cases hlk : promisedTable mapper k with
  | none => rw [hlk] at h; exact absurd h (by simp)
  | some plan =>
    rw [hlk] at h
    dsimp only at h
    refine ⟨plan, rfl, ?_⟩
    by_cases hseen : seen.any (fun q => Plan.planEq q plan) = true
    · rw [if_pos hseen] at h
      left
      refine ⟨(memEq_any seen plan).mp hseen, ?_⟩
      simpa using h.symm
    · rw [if_neg hseen] at h
      right
      refine ⟨fun hc => hseen ((memEq_any seen plan).mpr hc), ?_⟩
      cases hks : ExecutionGraph.walkKeys mapper f plan.promList (plan :: seen) with
      | error msg => rw [hks] at h; exact absurd h (by simp)
      | ok pr =>
        rw [hks] at h
        dsimp only at h
        refine ⟨pr.1, pr.2, rfl, ?_⟩
        simpa using h.symm

theorem walkPlan_succ_prune (mapper : List (PromiseKey × Plan)) (f : Nat) (k : PromiseKey)
    (seen : List Plan) (plan : Plan) (hlk : promisedTable mapper k = some plan)
    (hseen : memEq seen plan) :
    ExecutionGraph.walkPlan mapper (f + 1) k seen = .ok (seen, []) := by
  unfold ExecutionGraph.walkPlan
  rw [hlk]
  dsimp only
  rw [if_pos ((memEq_any seen plan).mpr hseen)]

theorem walkPlan_succ_descend (mapper : List (PromiseKey × Plan)) (f : Nat) (k : PromiseKey)
    (seen seen1 : List Plan) (plan : Plan) (out : List (PromiseKey × Plan))
    (hlk : promisedTable mapper k = some plan) (hseen : ¬ memEq seen plan)
    (hkeys : ExecutionGraph.walkKeys mapper f plan.promList (plan :: seen) = .ok (seen1, out)) :
    ExecutionGraph.walkPlan mapper (f + 1) k seen = .ok (seen1, out ++ [(k, plan)]) := by
  unfold ExecutionGraph.walkPlan
  rw [hlk]
  dsimp only
  rw [if_neg (fun hc => hseen ((memEq_any seen plan).mp hc))]
  rw [hkeys]

theorem walkKeys_nil (mapper : List (PromiseKey × Plan)) (f : Nat) (seen : List Plan) :
    ExecutionGraph.walkKeys mapper f [] seen = .ok (seen, []) := by
  unfold ExecutionGraph.walkKeys
  rfl

theorem walkKeys_cons_inv (mapper : List (PromiseKey × Plan)) (f : Nat) (k : PromiseKey)
    (ks : List PromiseKey) (seen : List Plan) (r : List Plan × List (PromiseKey × Plan))
    (h : ExecutionGraph.walkKeys mapper f (k :: ks) seen = .ok r) :
    ∃ seen1 out1 seen2 out2,
      ExecutionGraph.walkPlan mapper f k seen = .ok (seen1, out1) ∧
      ExecutionGraph.walkKeys mapper f ks seen1 = .ok (seen2, out2) ∧
      r = (seen2, out1 ++ out2) := by
  unfold ExecutionGraph.walkKeys at h
  cases hp : ExecutionGraph.walkPlan mapper f k seen with
  | error msg => rw [hp] at h; exact absurd h (by simp)
  | ok r1 =>
    rw [hp] at h
    dsimp only at h
    cases hk : ExecutionGraph.walkKeys mapper f ks r1.1 with
    | error msg => rw [hk] at h; exact absurd h (by simp)
    | ok r2 =>
      rw [hk] at h
      dsimp only at h
      refine ⟨r1.1, r1.2, r2.1, r2.2, rfl, ?_, ?_⟩
      · exact hk
      · simpa using h.symm

theorem walkKeys_cons_ok (mapper : List (PromiseKey × Plan)) (f : Nat) (k : PromiseKey)
    (ks : List PromiseKey) (seen seen1 seen2 : List Plan)
    (out1 out2 : List (PromiseKey × Plan))
    (hp : ExecutionGraph.walkPlan mapper f k seen = .ok (seen1, out1))
    (hk : ExecutionGraph.walkKeys mapper f ks seen1 = .ok (seen2, out2)) :
    ExecutionGraph.walkKeys mapper f (k :: ks) seen = .ok (seen2, out1 ++ out2) := by
  unfold ExecutionGraph.walkKeys
  rw [hp]
  dsimp only
  rw [hk]

theorem walkKeys_grow_of (mapper : List (PromiseKey × Plan)) (f : Nat)
    (hp : ∀ k seen r, ExecutionGraph.walkPlan mapper f k seen = .ok r →
      ∃ pre, r.1 = pre ++ seen ∧ pre.Perm (r.2.map (fun e => e.2))) :
    ∀ ks seen r, ExecutionGraph.walkKeys mapper f ks seen = .ok r →
      ∃ pre, r.1 = pre ++ seen ∧ pre.Perm (r.2.map (fun e => e.2)) := by
  intro ks
  induction ks with
  | nil =>
    intro seen r h
    rw [walkKeys_nil] at h
    obtain rfl : (seen, ([] : List (PromiseKey × Plan))) = r := by simpa using h
    exact ⟨[], by simp, by simp⟩
  | cons k ks ih =>
    intro seen r h
    obtain ⟨s1, o1, s2, o2, hpl, hks, rfl⟩ := walkKeys_cons_inv _ _ _ _ _ _ h
    obtain ⟨pre1, he1, hp1⟩ := hp k seen (s1, o1) hpl
    obtain ⟨pre2, he2, hp2⟩ := ih s1 (s2, o2) hks
    refine ⟨pre2 ++ pre1, ?_, ?_⟩
    · show s2 = (pre2 ++ pre1) ++ seen
      simp only at he1 he2
      rw [he2, he1, List.append_assoc]
    · show (pre2 ++ pre1).Perm ((o1 ++ o2).map (fun e => e.2))
      rw [List.map_append]
      simp only at hp1 hp2
      exact (List.perm_append_comm).trans (hp1.append hp2)

theorem walkPlan_grow (mapper : List (PromiseKey × Plan)) :
    ∀ (f : Nat) (k : PromiseKey) (seen : List Plan) r,
      ExecutionGraph.walkPlan mapper f k seen = .ok r →
      ∃ pre, r.1 = pre ++ seen ∧ pre.Perm (r.2.map (fun e => e.2)) := by
  intro f
  induction f with
  | zero => intro k seen r h; exact (walkPlan_zero_inv _ _ _ _ h).elim
  | succ f ih =>
    intro k seen r h
    obtain ⟨plan, hlk, hcase⟩ := walkPlan_succ_inv _ _ _ _ _ h
    rcases hcase with ⟨hm, rfl⟩ | ⟨hm, seen1, out, hks, rfl⟩
    · exact ⟨[], by simp, by simp⟩
    · obtain ⟨pre, he, hpp⟩ := walkKeys_grow_of mapper f ih plan.promList (plan :: seen)
        (seen1, out) hks
      refine ⟨pre ++ [plan], ?_, ?_⟩
      · show seen1 = (pre ++ [plan]) ++ seen
        simp only at he
        rw [he, List.append_assoc]
        rfl
      · show (pre ++ [plan]).Perm ((out ++ [(k, plan)]).map (fun e => e.2))
        rw [List.map_append]
        simp only at hpp
        exact hpp.append (List.Perm.refl _)

theorem walkKeys_grow (mapper : List (PromiseKey × Plan)) (f : Nat) :
    ∀ ks seen r, ExecutionGraph.walkKeys mapper f ks seen = .ok r →
      ∃ pre, r.1 = pre ++ seen ∧ pre.Perm (r.2.map (fun e => e.2)) :=
  walkKeys_grow_of mapper f (walkPlan_grow mapper f)

theorem walkKeys_lands_of (mapper : List (PromiseKey × Plan)) (f : Nat)
    (hp : ∀ k seen r, ExecutionGraph.walkPlan mapper f k seen = .ok r →
      ∀ p0, promisedTable mapper k = some p0 → memEq r.1 p0) :
    ∀ ks seen r, ExecutionGraph.walkKeys mapper f ks seen = .ok r →
      ∀ k ∈ ks, ∀ p0, promisedTable mapper k = some p0 → memEq r.1 p0 := by
  intro ks
  induction ks with
  | nil => intro seen r h k hk; exact absurd hk (by simp)
  | cons k0 ks ih =>
    intro seen r h k hk p0 hp0
    obtain ⟨s1, o1, s2, o2, hpl, hks, rfl⟩ := walkKeys_cons_inv _ _ _ _ _ _ h
    rcases List.mem_cons.mp hk with rfl | hk'
    · have h1 := hp k seen (s1, o1) hpl p0 hp0
      obtain ⟨pre2, he2, -⟩ := walkKeys_grow mapper f ks s1 (s2, o2) hks
      simp only at he2 h1
      show memEq s2 p0
      rw [he2, memEq_append]
      exact Or.inr h1
    · exact ih s1 (s2, o2) hks k hk' p0 hp0

theorem walkPlan_lands (mapper : List (PromiseKey × Plan)) :
    ∀ (f : Nat) (k : PromiseKey) (seen : List Plan) r,
      ExecutionGraph.walkPlan mapper f k seen = .ok r →
      ∀ p0, promisedTable mapper k = some p0 → memEq r.1 p0 := by
  intro f
  induction f with
  | zero => intro k seen r h; exact (walkPlan_zero_inv _ _ _ _ h).elim
  | succ f ih =>
    intro k seen r h p0 hp0
    obtain ⟨plan, hlk, hcase⟩ := walkPlan_succ_inv _ _ _ _ _ h
    obtain rfl : p0 = plan := by rw [hp0] at hlk; simpa using hlk
    rcases hcase with ⟨hm, rfl⟩ | ⟨hm, seen1, out, hks, rfl⟩
    · exact hm
    · obtain ⟨pre, he, -⟩ := walkKeys_grow mapper f p0.promList (p0 :: seen)
        (seen1, out) hks
      simp only at he
      show memEq seen1 p0
      rw [he, memEq_append, memEq_cons]
      exact Or.inr (Or.inl (planEq_refl p0))

theorem walkKeys_lands (mapper : List (PromiseKey × Plan)) (f : Nat) :
    ∀ ks seen r, ExecutionGraph.walkKeys mapper f ks seen = .ok r →
      ∀ k ∈ ks, ∀ p0, promisedTable mapper k = some p0 → memEq r.1 p0 :=
  walkKeys_lands_of mapper f (walkPlan_lands mapper f)

theorem planEq_false_of_not (a b : Plan) (h : ¬ Plan.planEq a b = true) :
    Plan.planEq a b = false := by
  cases hab : Plan.planEq a b
  · rfl
  · exact absurd hab h

theorem walkKeys_fresh_of (mapper : List (PromiseKey × Plan)) (f : Nat)
    (hpg : ∀ k seen r, ExecutionGraph.walkPlan mapper f k seen = .ok r →
      ∃ pre, r.1 = pre ++ seen ∧ pre.Perm (r.2.map (fun e => e.2)))
    (hp : ∀ k seen r, ExecutionGraph.walkPlan mapper f k seen = .ok r →
      (∀ p ∈ r.2.map (fun e => e.2), ¬ memEq seen p) ∧
      (r.2.map (fun e => e.2)).Pairwise (fun a b => Plan.planEq a b = false)) :
    ∀ ks seen r, ExecutionGraph.walkKeys mapper f ks seen = .ok r →
      (∀ p ∈ r.2.map (fun e => e.2), ¬ memEq seen p) ∧
      (r.2.map (fun e => e.2)).Pairwise (fun a b => Plan.planEq a b = false) := by
  intro ks
  induction ks with
  | nil =>
    intro seen r h
    rw [walkKeys_nil] at h
    obtain rfl : (seen, ([] : List (PromiseKey × Plan))) = r := by simpa using h
    exact ⟨by simp, by simp⟩
  | cons k ks ih =>
    intro seen r h
    obtain ⟨s1, o1, s2, o2, hpl, hks, rfl⟩ := walkKeys_cons_inv _ _ _ _ _ _ h
    obtain ⟨F1, P1⟩ := hp k seen (s1, o1) hpl
    obtain ⟨F2, P2⟩ := ih s1 (s2, o2) hks
    obtain ⟨pre1, hs1, hperm1⟩ := hpg k seen (s1, o1) hpl
    simp only at F1 P1 F2 P2 hs1 hperm1
    constructor
    · intro p hP
      show ¬ memEq seen p
      rw [List.map_append, List.mem_append] at hP
      rcases hP with hP | hP
      · exact F1 p hP
      · intro hc
        refine F2 p hP ?_
        rw [hs1, memEq_append]
        exact Or.inr hc
    · show ((o1 ++ o2).map (fun e => e.2)).Pairwise (fun a b => Plan.planEq a b = false)
      rw [List.map_append]
      rw [List.pairwise_append]
      refine ⟨P1, P2, ?_⟩
      intro a ha b hb
      apply planEq_false_of_not
      intro hab
      refine F2 b hb ?_
      rw [hs1, memEq_append]
      left
      exact ⟨a, hperm1.mem_iff.mpr ha, hab⟩

theorem walkPlan_fresh (mapper : List (PromiseKey × Plan)) :
    ∀ (f : Nat) (k : PromiseKey) (seen : List Plan) r,
      ExecutionGraph.walkPlan mapper f k seen = .ok r →
      (∀ p ∈ r.2.map (fun e => e.2), ¬ memEq seen p) ∧
      (r.2.map (fun e => e.2)).Pairwise (fun a b => Plan.planEq a b = false) := by
  intro f
  induction f with
  | zero => intro k seen r h; exact (walkPlan_zero_inv _ _ _ _ h).elim
  | succ f ih =>
    intro k seen r h
    obtain ⟨plan, hlk, hcase⟩ := walkPlan_succ_inv _ _ _ _ _ h
    rcases hcase with ⟨hm, rfl⟩ | ⟨hm, seen1, out, hks, rfl⟩
    · exact ⟨by simp, by simp⟩
    · obtain ⟨Fc, Pc⟩ := walkKeys_fresh_of mapper f (walkPlan_grow mapper f) ih
        plan.promList (plan :: seen) (seen1, out) hks
      simp only at Fc Pc
      constructor
      · intro p hP
        show ¬ memEq seen p
        rw [List.map_append, List.mem_append] at hP
        rcases hP with hP | hP
        · intro hc
          refine Fc p hP ?_
          rw [memEq_cons]
          exact Or.inr hc
        · simp only [List.map_cons, List.map_nil, List.mem_cons] at hP
          rcases hP with rfl | hP
          · exact hm
          · exact absurd hP (by simp)
      · show ((out ++ [(k, plan)]).map (fun e => e.2)).Pairwise
          (fun a b => Plan.planEq a b = false)
        rw [List.map_append, List.pairwise_append]
        refine ⟨Pc, by simp, ?_⟩
        intro a ha b hb
        simp only [List.map_cons, List.map_nil, List.mem_cons] at hb
        rcases hb with rfl | hb
        · apply planEq_false_of_not
          intro hab
          refine Fc a ha ?_
          rw [memEq_cons]
          exact Or.inl (planEq_symm a b hab)
        · exact absurd hb (by simp)

theorem walkKeys_fresh (mapper : List (PromiseKey × Plan)) (f : Nat) :
    ∀ ks seen r, ExecutionGraph.walkKeys mapper f ks seen = .ok r →
      (∀ p ∈ r.2.map (fun e => e.2), ¬ memEq seen p) ∧
      (r.2.map (fun e => e.2)).Pairwise (fun a b => Plan.planEq a b = false) :=
  walkKeys_fresh_of mapper f (walkPlan_grow mapper f) (walkPlan_fresh mapper f)

/-- Closure of a seen set except at a set `A` of plans still on the descent
path: every seen plan not excused by `A` has all plans of its promises seen. -/
def CEx (mapper : List (PromiseKey × Plan)) (S A : List Plan) : Prop :=
  ∀ p ∈ S, ¬ memEq A p → ∀ k ∈ p.promList, ∀ q, promisedTable mapper k = some q → memEq S q

theorem walkKeys_closed_of (mapper : List (PromiseKey × Plan)) (f : Nat)
    (hp : ∀ A k seen r, CEx mapper seen A →
      ExecutionGraph.walkPlan mapper f k seen = .ok r → CEx mapper r.1 A) :
    ∀ A ks seen r, CEx mapper seen A →
      ExecutionGraph.walkKeys mapper f ks seen = .ok r → CEx mapper r.1 A := by
  intro A ks
  induction ks with
  | nil =>
    intro seen r hce h
    rw [walkKeys_nil] at h
    obtain rfl : (seen, ([] : List (PromiseKey × Plan))) = r := by simpa using h
    exact hce
  | cons k ks ih =>
    intro seen r hce h
    obtain ⟨s1, o1, s2, o2, hpl, hks, rfl⟩ := walkKeys_cons_inv _ _ _ _ _ _ h
    exact ih s1 (s2, o2) (hp A k seen (s1, o1) hce hpl) hks

theorem walkPlan_closed (mapper : List (PromiseKey × Plan)) :
    ∀ (f : Nat) (A : List Plan) (k : PromiseKey) (seen : List Plan) r,
      CEx mapper seen A → ExecutionGraph.walkPlan mapper f k seen = .ok r →
      CEx mapper r.1 A := by
  intro f
  induction f with
  | zero => intro A k seen r hce h; exact (walkPlan_zero_inv _ _ _ _ h).elim
  | succ f ih =>
    intro A k seen r hce h
    obtain ⟨plan, hlk, hcase⟩ := walkPlan_succ_inv _ _ _ _ _ h
    rcases hcase with ⟨hm, rfl⟩ | ⟨hm, seen1, out, hks, rfl⟩
    · exact hce
    · have hce1 : CEx mapper (plan :: seen) (plan :: A) := by
        intro p hpmem hnotA k1 hk1 q hq
        rw [memEq_cons] at hnotA
        push_neg at hnotA
        rcases List.mem_cons.mp hpmem with rfl | hpmem'
        · exact absurd (planEq_refl p) (by simpa using hnotA.1)
        · have := hce p hpmem' hnotA.2 k1 hk1 q hq
          rw [memEq_cons]
          exact Or.inr this
      have hClosed1 : CEx mapper seen1 (plan :: A) :=
        walkKeys_closed_of mapper f (fun A => ih A) (plan :: A) plan.promList
          (plan :: seen) (seen1, out) hce1 hks
      have hLands : ∀ k1 ∈ plan.promList, ∀ q, promisedTable mapper k1 = some q →
          memEq seen1 q := by
        intro k1 hk1 q hq
        exact walkKeys_lands mapper f plan.promList (plan :: seen) (seen1, out) hks k1 hk1 q hq
      show CEx mapper seen1 A
      intro p hpmem hnotA k1 hk1 q hq
      by_cases hpe : Plan.planEq plan p = true
      · refine hLands k1 ?_ q hq
        exact (planEq_promList_mem plan p hpe k1).mpr hk1
      · refine hClosed1 p hpmem ?_ k1 hk1 q hq
        rw [memEq_cons]
        push_neg
        exact ⟨by simpa using hpe, hnotA⟩

theorem walkKeys_closed (mapper : List (PromiseKey × Plan)) (f : Nat) :
    ∀ A ks seen r, CEx mapper seen A →
      ExecutionGraph.walkKeys mapper f ks seen = .ok r → CEx mapper r.1 A :=
  walkKeys_closed_of mapper f (fun A => walkPlan_closed mapper f A)

theorem walkPlan_ok_lookup (mapper : List (PromiseKey × Plan)) (f : Nat) (k : PromiseKey)
    (seen : List Plan) (r : List Plan × List (PromiseKey × Plan))
    (h : ExecutionGraph.walkPlan mapper f k seen = .ok r) :
    ∃ plan, promisedTable mapper k = some plan := by
  cases f with
  | zero => exact (walkPlan_zero_inv _ _ _ _ h).elim
  | succ f0 =>
    obtain ⟨plan, hlk, -⟩ := walkPlan_succ_inv _ _ _ _ _ h
    exact ⟨plan, hlk⟩

theorem walkKeys_rank_of (mapper : List (PromiseKey × Plan)) (rank : Plan → Nat)
    (f : Nat)
    (hp : ∀ k seen r, ExecutionGraph.walkPlan mapper f k seen = .ok r →
      ∀ p0, promisedTable mapper k = some p0 →
      ∀ p ∈ r.2.map (fun e => e.2), rank p ≤ rank p0) :
    ∀ ks seen r (B : Nat), ExecutionGraph.walkKeys mapper f ks seen = .ok r →
      (∀ k ∈ ks, ∀ pc, promisedTable mapper k = some pc → rank pc < B) →
      ∀ p ∈ r.2.map (fun e => e.2), rank p < B := by
  intro ks
  induction ks with
  | nil =>
    intro seen r B h hb p hP
    rw [walkKeys_nil] at h
    obtain rfl : (seen, ([] : List (PromiseKey × Plan))) = r := by simpa using h
    exact absurd hP (by simp)
  | cons k ks ih =>
    intro seen r B h hb p hP
    obtain ⟨s1, o1, s2, o2, hpl, hks, rfl⟩ := walkKeys_cons_inv _ _ _ _ _ _ h
    simp only [List.map_append, List.mem_append] at hP
    rcases hP with hP | hP
    · obtain ⟨pc, hpc⟩ := walkPlan_ok_lookup mapper f k seen (s1, o1) hpl
      have h1 := hp k seen (s1, o1) hpl pc hpc p hP
      have h2 := hb k (by simp) pc hpc
      omega
    · exact ih s1 (s2, o2) B hks (fun k1 hk1 => hb k1 (by simp [hk1])) p hP

theorem walkPlan_rank (mapper : List (PromiseKey × Plan)) (rank : Plan → Nat)
    (Hdec : ∀ p q, DirectDep mapper p q → rank q < rank p) :
    ∀ (f : Nat) (k : PromiseKey) (seen : List Plan) r,
      ExecutionGraph.walkPlan mapper f k seen = .ok r →
      ∀ p0, promisedTable mapper k = some p0 →
      ∀ p ∈ r.2.map (fun e => e.2), rank p ≤ rank p0 := by
  intro f
  induction f with
  | zero => intro k seen r h; exact (walkPlan_zero_inv _ _ _ _ h).elim
  | succ f ih =>
    intro k seen r h p0 hp0 p hP
    obtain ⟨plan, hlk, hcase⟩ := walkPlan_succ_inv _ _ _ _ _ h
    obtain rfl : p0 = plan := by rw [hp0] at hlk; simpa using hlk
    rcases hcase with ⟨hm, rfl⟩ | ⟨hm, seen1, out, hks, rfl⟩
    · exact absurd hP (by simp)
    · simp only [List.map_append, List.mem_append] at hP
      rcases hP with hP | hP
      · have := walkKeys_rank_of mapper rank f ih p0.promList (p0 :: seen)
          (seen1, out) (rank p0) hks ?_ p hP
        · omega
        · intro k1 hk1 pc hpc
          exact Hdec p0 pc ⟨k1, hk1, hpc⟩
      · simp only [List.map_cons, List.map_nil, List.mem_cons] at hP
        rcases hP with rfl | hP
        · exact le_refl _
        · exact absurd hP (by simp)

theorem walkKeys_rank (mapper : List (PromiseKey × Plan)) (rank : Plan → Nat)
    (Hdec : ∀ p q, DirectDep mapper p q → rank q < rank p) (f : Nat) :
    ∀ ks seen r (B : Nat), ExecutionGraph.walkKeys mapper f ks seen = .ok r →
      (∀ k ∈ ks, ∀ pc, promisedTable mapper k = some pc → rank pc < B) →
      ∀ p ∈ r.2.map (fun e => e.2), rank p < B :=
  walkKeys_rank_of mapper rank f (walkPlan_rank mapper rank Hdec f)

theorem snoc_split {α : Type} (xs l₁ l₂ : List α) (x e : α)
    (h : xs ++ [x] = l₁ ++ e :: l₂) :
    (l₂ = [] ∧ l₁ = xs ∧ e = x) ∨ (∃ l₂', l₂ = l₂' ++ [x] ∧ xs = l₁ ++ e :: l₂') := by
  rcases List.eq_nil_or_concat l₂ with rfl | ⟨t, a, rfl⟩
  · left
    have hlen : xs.length = l₁.length := by
      have := congrArg List.length h
      simp at this
      omega
    obtain ⟨h1, h2⟩ := List.append_inj h hlen
    exact ⟨rfl, h1.symm, by simpa using h2.symm⟩
  · right
    have h' : xs ++ [x] = (l₁ ++ e :: t) ++ [a] := by
      rw [h]; simp
    have hlen : xs.length = (l₁ ++ e :: t).length := by
      have := congrArg List.length h'
      simp [List.length_append] at this ⊢
      omega
    obtain ⟨h1, h2⟩ := List.append_inj h' hlen
    have hax : a = x := by simpa using h2.symm
    exact ⟨t, by rw [hax, List.concat_eq_append], h1⟩

theorem memEq_nil (q : Plan) : ¬ memEq [] q := by
  rintro ⟨r, hr, -⟩
  exact absurd hr (by simp)

theorem walkKeys_order_of (mapper : List (PromiseKey × Plan)) (f : Nat)
    (hp : ∀ k seen r, ExecutionGraph.walkPlan mapper f k seen = .ok r →
      ∀ l₁ e l₂, r.2 = l₁ ++ e :: l₂ →
      ∀ kq q, kq ∈ Plan.promList e.2 → promisedTable mapper kq = some q →
        memEq seen q ∨ memEq (l₁.map (fun x => x.2)) q) :
    ∀ ks seen r, ExecutionGraph.walkKeys mapper f ks seen = .ok r →
      ∀ l₁ e l₂, r.2 = l₁ ++ e :: l₂ →
      ∀ kq q, kq ∈ Plan.promList e.2 → promisedTable mapper kq = some q →
        memEq seen q ∨ memEq (l₁.map (fun x => x.2)) q := by
  intro ks
  induction ks with
  | nil =>
    intro seen r h l₁ e l₂ hsplit
    rw [walkKeys_nil] at h
    obtain rfl : (seen, ([] : List (PromiseKey × Plan))) = r := by simpa using h
    exact absurd hsplit.symm (by simp)
  | cons k ks ih =>
    intro seen r h l₁ e l₂ hsplit kq q hkq hq
    obtain ⟨s1, o1, s2, o2, hpl, hks, rfl⟩ := walkKeys_cons_inv _ _ _ _ _ _ h
    obtain ⟨pre1, hs1, hperm1⟩ := walkPlan_grow mapper f k seen (s1, o1) hpl
    simp only at hs1 hperm1 hsplit
    rcases List.append_eq_append_iff.mp hsplit with ⟨a', ha1, ha2⟩ | ⟨c', hc1, hc2⟩
    · rcases ih s1 (s2, o2) hks a' e l₂ (by simpa using ha2) kq q hkq hq with hin | hin
      · rw [hs1, memEq_append] at hin
        rcases hin with hin | hin
        · right
          rw [ha1, List.map_append, memEq_append]
          left
          exact (memEq_perm hperm1 q).mp hin
        · exact Or.inl hin
      · right
        rw [ha1, List.map_append, memEq_append]
        exact Or.inr hin
    · cases c' with
      | nil =>
        simp only [List.nil_append] at hc2
        have hc1' : o1 = l₁ := by simpa using hc1
        rcases ih s1 (s2, o2) hks [] e l₂ (by simpa using hc2.symm) kq q hkq hq with hin | hin
        · rw [hs1, memEq_append] at hin
          rcases hin with hin | hin
          · right
            rw [← hc1']
            exact (memEq_perm hperm1 q).mp hin
          · exact Or.inl hin
        · exact absurd hin (by simpa using memEq_nil q)
      | cons e' c'' =>
        have hc2a : e :: l₂ = e' :: (c'' ++ o2) := by simpa using hc2
        have h1 : e = e' := by injection hc2a
        exact hp k seen (s1, o1) hpl l₁ e c''
          (show (s1, o1).2 = l₁ ++ e :: c'' by rw [h1]; simpa using hc1) kq q hkq hq

theorem walkPlan_order (mapper : List (PromiseKey × Plan)) (rank : Plan → Nat)
    (Hdec : ∀ p q, DirectDep mapper p q → rank q < rank p)
    (Hrk : ∀ p q, Plan.planEq p q = true → rank p = rank q) :
    ∀ (f : Nat) (k : PromiseKey) (seen : List Plan) r,
      ExecutionGraph.walkPlan mapper f k seen = .ok r →
      ∀ l₁ e l₂, r.2 = l₁ ++ e :: l₂ →
      ∀ kq q, kq ∈ Plan.promList e.2 → promisedTable mapper kq = some q →
        memEq seen q ∨ memEq (l₁.map (fun x => x.2)) q := by
  intro f
  induction f with
  | zero => intro k seen r h; exact (walkPlan_zero_inv _ _ _ _ h).elim
  | succ f ih =>
    intro k seen r h l₁ e l₂ hsplit kq q hkq hq
    obtain ⟨plan, hlk, hcase⟩ := walkPlan_succ_inv _ _ _ _ _ h
    rcases hcase with ⟨hm, rfl⟩ | ⟨hm, seen1, out, hks, rfl⟩
    · exact absurd hsplit.symm (by simp)
    · simp only at hsplit
      rcases snoc_split out l₁ l₂ (k, plan) e hsplit with ⟨rfl, hl1, rfl⟩ | ⟨l₂', rfl, houtsplit⟩
      · -- the decomposed entry is the final yield of this call
        have hLands := walkKeys_lands mapper f plan.promList (plan :: seen)
          (seen1, out) hks kq hkq q hq
        obtain ⟨pre, hse, hperm⟩ := walkKeys_grow mapper f plan.promList (plan :: seen)
          (seen1, out) hks
        simp only at hse hperm hLands
        rw [hse, memEq_append, memEq_cons] at hLands
        rcases hLands with hin | hin | hin
        · right
          rw [hl1]
          exact (memEq_perm hperm q).mp hin
        · exfalso
          have h1 : rank q < rank plan := Hdec plan q ⟨kq, by simpa using hkq, hq⟩
          have h2 : rank plan = rank q := Hrk plan q hin
          omega
        · exact Or.inl hin
      · -- the decomposed entry lies among the dependency yields
        rcases walkKeys_order_of mapper f ih plan.promList (plan :: seen) (seen1, out)
            hks l₁ e l₂' houtsplit kq q hkq hq with hin | hin
        · rw [memEq_cons] at hin
          rcases hin with hin | hin
          · exfalso
            have hbound := walkKeys_rank mapper rank Hdec f plan.promList (plan :: seen)
              (seen1, out) (rank plan) hks ?hb e.2 ?hmem
            case hb =>
              intro k1 hk1 pc hpc
              exact Hdec plan pc ⟨k1, hk1, hpc⟩
            case hmem =>
              simp only [List.mem_map]
              exact ⟨e, by rw [houtsplit]; simp, rfl⟩
            have h1 : rank q < rank e.2 := Hdec e.2 q ⟨kq, hkq, hq⟩
            have h2 : rank plan = rank q := Hrk plan q hin
            omega
          · exact Or.inl hin
        · exact Or.inr hin

theorem walkKeys_order (mapper : List (PromiseKey × Plan)) (rank : Plan → Nat)
    (Hdec : ∀ p q, DirectDep mapper p q → rank q < rank p)
    (Hrk : ∀ p q, Plan.planEq p q = true → rank p = rank q) (f : Nat) :
    ∀ ks seen r, ExecutionGraph.walkKeys mapper f ks seen = .ok r →
      ∀ l₁ e l₂, r.2 = l₁ ++ e :: l₂ →
      ∀ kq q, kq ∈ Plan.promList e.2 → promisedTable mapper kq = some q →
        memEq seen q ∨ memEq (l₁.map (fun x => x.2)) q :=
  walkKeys_order_of mapper f (walkPlan_order mapper rank Hdec Hrk f)

/-- Count of entries of a list satisfying a weaker predicate is bounded by
the count for a stronger one. -/
theorem countP_le_of {α : Type} (l : List α) (p q : α → Bool)
    (hmono : ∀ a ∈ l, q a = true → p a = true) :
    l.countP q ≤ l.countP p := by
  induction l with
  | nil => simp
  | cons x l ih =>
    have hle := ih (fun b hb => hmono b (by simp [hb]))
    rw [List.countP_cons, List.countP_cons]
    have hx : (if q x = true then 1 else 0) ≤ (if p x = true then 1 else 0) := by
      by_cases hqx : q x = true
      · rw [if_pos hqx, if_pos (hmono x (by simp) hqx)]
      · rw [if_neg hqx]
        omega
    omega

/-- The count strictly drops when the stronger predicate holds somewhere the
weaker one fails. -/
theorem countP_lt_of {α : Type} (l : List α) (p q : α → Bool)
    (hmono : ∀ a ∈ l, q a = true → p a = true) :
    ∀ a ∈ l, p a = true → q a = false → l.countP q < l.countP p := by
  induction l with
  | nil => intro a ha; exact absurd ha (by simp)
  | cons x l ih =>
    intro a ha hpa hqa
    have hmono2 : ∀ b ∈ l, q b = true → p b = true := fun b hb => hmono b (by simp [hb])
    rw [List.countP_cons, List.countP_cons]
    rcases List.mem_cons.mp ha with rfl | ha2
    · have hle := countP_le_of l p q hmono2
      rw [if_pos hpa, if_neg (by simp [hqa])]
      omega
    · have hlt := ih hmono2 a ha2 hpa hqa
      have hx : (if q x = true then 1 else 0) ≤ (if p x = true then 1 else 0) := by
        by_cases hqx : q x = true
        · rw [if_pos hqx, if_pos (hmono x (by simp) hqx)]
        · rw [if_neg hqx]
          omega
      omega

/-- Monotonicity of the not-yet-seen test in the seen set. -/
theorem notSeenAny_mono (big small : List Plan) (hsub : ∀ x ∈ small, x ∈ big) (a : Plan)
    (h : (! big.any (fun q => Plan.planEq q a)) = true) :
    (! small.any (fun q => Plan.planEq q a)) = true := by
  cases hb : small.any (fun q => Plan.planEq q a)
  · rfl
  · exfalso
    obtain ⟨x, hx, he⟩ := List.any_eq_true.mp hb
    have hbig : big.any (fun q => Plan.planEq q a) = true :=
      List.any_eq_true.mpr ⟨x, hsub x hx, he⟩
    rw [hbig] at h
    exact absurd h (by simp)

/-- Fuel measure of a walk: the number of registered plans not yet seen
modulo the `Plan` equality contract.  Each descent of `_walk_plan` consumes
one unit, so the table length bounds the depth of the recursion. -/
def walkMeasure (mapper : List (PromiseKey × Plan)) (seen : List Plan) : Nat :=
  (mapper.map (fun e => e.2)).countP (fun p => ! seen.any (fun q => Plan.planEq q p))

theorem walkMeasure_mono (mapper : List (PromiseKey × Plan)) (pre seen : List Plan) :
    walkMeasure mapper (pre ++ seen) ≤ walkMeasure mapper seen := by
  apply countP_le_of
  intro a ha h
  exact notSeenAny_mono (pre ++ seen) seen
    (fun x hx => List.mem_append.mpr (Or.inr hx)) a h

theorem walkMeasure_strict (mapper : List (PromiseKey × Plan)) (seen : List Plan)
    (plan : Plan) (hmem : plan ∈ mapper.map (fun e => e.2)) (hnew : ¬ memEq seen plan) :
    walkMeasure mapper (plan :: seen) < walkMeasure mapper seen := by
  refine countP_lt_of _ _ _ ?mono plan hmem ?old ?new
  case mono =>
    intro a ha h
    exact notSeenAny_mono (plan :: seen) seen
      (fun x hx => List.mem_cons.mpr (Or.inr hx)) a h
  case old =>
    cases hb : seen.any (fun q => Plan.planEq q plan)
    · rfl
    · exact absurd ((memEq_any seen plan).mp hb) hnew
  case new =>
    have hb : (plan :: seen).any (fun q => Plan.planEq q plan) = true :=
      List.any_eq_true.mpr ⟨plan, by simp, planEq_refl plan⟩
    rw [hb]
    rfl

theorem ReachKey_trans (mapper : List (PromiseKey × Plan)) (a b c : PromiseKey)
    (h1 : ReachKey mapper a b) (h2 : ReachKey mapper b c) : ReachKey mapper a c := by
  induction h2 with
  | refl => exact h1
  | step h2a hpt hm ih => exact .step ih hpt hm

theorem transGen_cases_head {α : Type} {r : α → α → Prop} {a b : α}
    (h : Relation.TransGen r a b) : r a b ∨ ∃ c, r a c ∧ Relation.TransGen r c b := by
  induction h using Relation.TransGen.head_induction_on with
  | base h0 => exact Or.inl h0
  | ih h1 h2 ih => exact Or.inr ⟨_, h1, h2⟩

theorem walkKeys_fuel_of (mapper : List (PromiseKey × Plan)) (f : Nat)
    (hp : ∀ k seen, (∀ k1, ReachKey mapper k k1 → (promisedTable mapper k1).isSome = true) →
      walkMeasure mapper seen < f →
      ∃ r, ExecutionGraph.walkPlan mapper f k seen = .ok r) :
    ∀ ks seen,
      (∀ k ∈ ks, ∀ k1, ReachKey mapper k k1 → (promisedTable mapper k1).isSome = true) →
      walkMeasure mapper seen < f →
      ∃ r, ExecutionGraph.walkKeys mapper f ks seen = .ok r := by
  intro ks
  induction ks with
  | nil => intro seen hreg hf; exact ⟨(seen, []), walkKeys_nil mapper f seen⟩
  | cons k ks ih =>
    intro seen hreg hf
    obtain ⟨r1, hr1⟩ := hp k seen (hreg k (by simp)) hf
    obtain ⟨s1, o1⟩ := r1
    obtain ⟨pre1, hs1, -⟩ := walkPlan_grow mapper f k seen (s1, o1) hr1
    simp only at hs1
    have hf1 : walkMeasure mapper s1 < f := by
      have := walkMeasure_mono mapper pre1 seen
      rw [← hs1] at this
      omega
    obtain ⟨r2, hr2⟩ := ih s1 (fun k1 hk1 => hreg k1 (by simp [hk1])) hf1
    obtain ⟨s2, o2⟩ := r2
    exact ⟨(s2, o1 ++ o2), walkKeys_cons_ok mapper f k ks seen s1 s2 o1 o2 hr1 hr2⟩

theorem walkPlan_fuel (mapper : List (PromiseKey × Plan)) :
    ∀ (f : Nat) (k : PromiseKey) (seen : List Plan),
      (∀ k1, ReachKey mapper k k1 → (promisedTable mapper k1).isSome = true) →
      walkMeasure mapper seen < f →
      ∃ r, ExecutionGraph.walkPlan mapper f k seen = .ok r := by
  intro f
  induction f with
  | zero => intro k seen hreg hf; omega
  | succ f ih =>
    intro k seen hreg hf
    have hks : (promisedTable mapper k).isSome = true := hreg k (.refl k)
    obtain ⟨plan, hlk⟩ := Option.isSome_iff_exists.mp hks
    by_cases hseen : memEq seen plan
    · exact ⟨(seen, []), walkPlan_succ_prune mapper f k seen plan hlk hseen⟩
    · have hmem : plan ∈ mapper.map (fun e => e.2) := by
        unfold promisedTable at hlk
        cases hf : mapper.find? (fun e => e.1 == k) with
        | none => rw [hf] at hlk; exact absurd hlk (by simp)
        | some e =>
          rw [hf] at hlk
          exact List.mem_map.mpr ⟨e, List.mem_of_find?_eq_some hf, by simpa using hlk⟩
      have hstrict := walkMeasure_strict mapper seen plan hmem hseen
      have hf1 : walkMeasure mapper (plan :: seen) < f := by omega
      have hreg1 : ∀ k1 ∈ plan.promList, ∀ k2, ReachKey mapper k1 k2 →
          (promisedTable mapper k2).isSome = true := by
        intro k1 hk1 k2 h12
        exact hreg k2 (ReachKey_trans mapper k k1 k2 (.step (.refl k) hlk hk1) h12)
      obtain ⟨r1, hr1⟩ := walkKeys_fuel_of mapper f ih plan.promList (plan :: seen)
        hreg1 hf1
      obtain ⟨s1, o1⟩ := r1
      exact ⟨(s1, o1 ++ [(k, plan)]),
        walkPlan_succ_descend mapper f k seen s1 plan o1 hlk hseen hr1⟩

/-- Exactly-once counting: a pairwise-inequivalent list holding a
representative of `q` holds exactly one. -/
theorem countP_eq_one_of (L : List Plan) (q : Plan)
    (hpw : L.Pairwise (fun a b => Plan.planEq a b = false))
    (hmem : ∃ r ∈ L, Plan.planEq r q = true) :
    L.countP (fun r => Plan.planEq r q) = 1 := by
  induction L with
  | nil => obtain ⟨r, hr, -⟩ := hmem; exact absurd hr (by simp)
  | cons a L ih =>
    rw [List.pairwise_cons] at hpw
    by_cases ha : Plan.planEq a q = true
    · have hz : L.countP (fun r => Plan.planEq r q) = 0 := by
        rw [List.countP_eq_zero]
        intro r hr
        show ¬ Plan.planEq r q = true
        intro hrq
        have : Plan.planEq a r = true :=
          planEq_trans a q r ha (planEq_symm r q hrq)
        rw [hpw.1 r hr] at this
        exact absurd this (by simp)
      simp only [List.countP_cons, ha, if_true, hz]
    · have ha2 : Plan.planEq a q = false := by simpa using ha
      obtain ⟨r, hr, hrq⟩ := hmem
      rcases List.mem_cons.mp hr with rfl | hr2
      · exact absurd hrq ha
      · simp only [List.countP_cons, ha2]
        simpa using ih hpw.2 ⟨r, hr2, hrq⟩

/-- A plan equal under the contract to the source of a direct dependency is
itself a source of that dependency: promise lists agree up to membership. -/
theorem DirectDep_of_planEq (mapper : List (PromiseKey × Plan)) (p b x : Plan)
    (hpe : Plan.planEq p b = true) (h : DirectDep mapper b x) : DirectDep mapper p x := by
  obtain ⟨k, hk, hx⟩ := h
  exact ⟨k, (planEq_promList_mem p b hpe k).mpr hk, hx⟩

theorem transGen_of_planEq (mapper : List (PromiseKey × Plan)) (p b q : Plan)
    (hpe : Plan.planEq p b = true) (h : Relation.TransGen (DirectDep mapper) b q) :
    Relation.TransGen (DirectDep mapper) p q := by
  rcases transGen_cases_head h with hd | ⟨m, hd, htg⟩
  · exact .single (DirectDep_of_planEq mapper p b q hpe hd)
  · exact .head (DirectDep_of_planEq mapper p b m hpe hd) htg

/-- Transitive version of the ordering invariant over a full walk from an
empty seen set: every transitive dependency of a yielded plan has an equal
plan yielded strictly earlier. -/
theorem walkKeys_order_transgen (mapper : List (PromiseKey × Plan)) (rank : Plan → Nat)
    (Hdec : ∀ p q, DirectDep mapper p q → rank q < rank p)
    (Hrk : ∀ p q, Plan.planEq p q = true → rank p = rank q) (f : Nat)
    (ks : List PromiseKey) (r : List Plan × List (PromiseKey × Plan))
    (h : ExecutionGraph.walkKeys mapper f ks [] = .ok r) :
    ∀ (n : Nat) l₁ e l₂, l₁.length ≤ n → r.2 = l₁ ++ e :: l₂ →
      ∀ q, Relation.TransGen (DirectDep mapper) e.2 q →
        ∃ p ∈ l₁.map (fun x => x.2), Plan.planEq p q = true := by
  intro n
  induction n with
  | zero =>
    intro l₁ e l₂ hlen hsplit q htg
    obtain rfl : l₁ = [] := List.length_eq_zero.mp (by omega)
    obtain ⟨b, hd⟩ : ∃ b, DirectDep mapper e.2 b := by
      rcases transGen_cases_head htg with hd | ⟨m, hd, -⟩
      · exact ⟨q, hd⟩
      · exact ⟨m, hd⟩
    obtain ⟨kb, hkb, hb⟩ := hd
    rcases walkKeys_order mapper rank Hdec Hrk f ks [] r h [] e l₂ hsplit kb b hkb hb with
      hin | hin
    · exact absurd hin (memEq_nil b)
    · exact absurd hin (by simpa using memEq_nil b)
  | succ n ih =>
    intro l₁ e l₂ hlen hsplit q htg
    rcases transGen_cases_head htg with hd | ⟨b, hd, htg2⟩
    · obtain ⟨kq, hkq, hq⟩ := hd
      rcases walkKeys_order mapper rank Hdec Hrk f ks [] r h l₁ e l₂ hsplit kq q hkq hq with
        hin | hin
      · exact absurd hin (memEq_nil q)
      · exact hin
    · obtain ⟨kb, hkb, hb⟩ := hd
      rcases walkKeys_order mapper rank Hdec Hrk f ks [] r h l₁ e l₂ hsplit kb b hkb hb with
        hin | hin
      · exact absurd hin (memEq_nil b)
      · obtain ⟨pb, hpb, hpbe⟩ := hin
        obtain ⟨eb, heb, heb2⟩ := List.mem_map.mp hpb
        obtain ⟨a1, t1, rfl⟩ := List.append_of_mem heb
        have hsplit2 : r.2 = a1 ++ eb :: (t1 ++ e :: l₂) := by
          rw [hsplit]
          simp
        have hlen2 : a1.length ≤ n := by
          have := congrArg List.length (rfl : a1 ++ eb :: t1 = a1 ++ eb :: t1)
          simp only [List.length_append, List.length_cons] at hlen
          omega
        have htg3 : Relation.TransGen (DirectDep mapper) eb.2 q := by
          rw [heb2]
          exact transGen_of_planEq mapper pb b q hpbe htg2
        obtain ⟨p, hp, hpe⟩ := ih a1 eb (t1 ++ e :: l₂) hlen2 hsplit2 q htg3
        refine ⟨p, ?_, hpe⟩
        rw [List.map_append, List.mem_append]
        exact Or.inl hp

/-- Transfer of the contract equality through either argument of another
contract test: equal plans test equal against any third plan. -/
theorem planEq_congr_left (p q r : Plan) (h : Plan.planEq p q = true) :
    Plan.planEq p r = Plan.planEq q r := by
  by_cases hb : Plan.planEq q r = true
  · rw [hb]
    exact planEq_trans p q r h hb
  · rw [planEq_false_of_not q r hb]
    apply planEq_false_of_not
    intro hc
    exact hb (planEq_trans q p r (planEq_symm p q h) hc)

/-- C2 (corrected): with all transitively reachable promise keys registered
and a rank function certifying that the plan dependency relation is acyclic
and respects the Plan equality contract, `ExecutionGraph.walk` succeeds,
yields every reachable plan exactly once modulo the contract, and yields an
equal of every direct or transitive dependency of a yielded plan strictly
before it.  Without the acyclicity hypotheses the ordering part of the claim
fails, as the counterexample shows. -/
theorem claim_C2 (mapper : List (PromiseKey × Plan)) (roots : List PromiseKey)
    (rank : Plan → Nat)
    (Hreg : ∀ k0 ∈ roots, ∀ k, ReachKey mapper k0 k →
      (promisedTable mapper k).isSome = true)
    (Hdec : ∀ p q, DirectDep mapper p q → rank q < rank p)
    (Hrk : ∀ p q, Plan.planEq p q = true → rank p = rank q) :
    ∃ out, ExecutionGraph.walk mapper roots = .ok out ∧
      (∀ q, ReachablePlan mapper roots q →
        (out.map (fun e => e.2)).countP (fun r => Plan.planEq r q) = 1) ∧
      (∀ l₁ e l₂, out = l₁ ++ e :: l₂ →
        ∀ q, Relation.TransGen (DirectDep mapper) e.2 q →
          ∃ p ∈ l₁.map (fun x => x.2), Plan.planEq p q = true) := by
  have h0 : walkMeasure mapper [] ≤ mapper.length := by
    have h1 : (mapper.map (fun e => e.2)).countP
        (fun p => ! ([] : List Plan).any (fun q => Plan.planEq q p)) ≤
        (mapper.map (fun e => e.2)).length := List.countP_le_length _
    unfold walkMeasure
    rw [List.length_map] at h1
    exact h1
  obtain ⟨r, hr⟩ := walkKeys_fuel_of mapper (mapper.length + 1)
    (walkPlan_fuel mapper (mapper.length + 1)) roots [] Hreg (by omega)
  obtain ⟨sF, out⟩ := r
  refine ⟨out, ?hwalk, ?honce, ?horder⟩
  case hwalk =>
    unfold ExecutionGraph.walk
    rw [hr]
  case honce =>
    have hCE : CEx mapper sF [] :=
      walkKeys_closed mapper (mapper.length + 1) [] roots [] (sF, out)
        (fun p hp => absurd hp (by simp)) hr
    have hmemF : ∀ q, ReachablePlan mapper roots q → memEq sF q := by
      intro q hq
      induction hq with
      | root hk hlk => exact walkKeys_lands mapper _ roots [] (sF, out) hr _ hk _ hlk
      | step hq1 hk hlk ih =>
        obtain ⟨r0, hr0, hre⟩ := ih
        exact hCE r0 hr0 (memEq_nil r0) _
          ((planEq_promList_mem r0 _ hre _).mpr hk) _ hlk
    obtain ⟨pre, hsF, hperm⟩ := walkKeys_grow mapper (mapper.length + 1) roots []
      (sF, out) hr
    simp only [List.append_nil] at hsF
    intro q hq
    have hout : memEq (out.map (fun e => e.2)) q := by
      rw [← memEq_perm hperm q, ← hsF]
      exact hmemF q hq
    exact countP_eq_one_of (out.map (fun e => e.2)) q
      (walkKeys_fresh mapper (mapper.length + 1) roots [] (sF, out) hr).2 hout
  case horder =>
    intro l₁ e l₂ hsplit q htg
    exact walkKeys_order_transgen mapper rank Hdec Hrk (mapper.length + 1) roots
      (sF, out) hr l₁.length l₁ e l₂ (le_refl _) (by simpa using hsplit) q htg

def cKA : PromiseKey := ⟨10, cEnt, none⟩

def cKB : PromiseKey := ⟨11, cEnt, none⟩

def cPB : Plan := Plan.make (.func 21) [] []

def cPA : Plan := Plan.make (.func 20) [] [(0, .prom cKB)]

def cMapper2 : List (PromiseKey × Plan) := [(cKA, cPA), (cKB, cPB)]

/-- Rank certificate for the two-plan table: the dependency-free plan ranks
lowest, its consumer next, anything else above. -/
def cRank2 (p : Plan) : Nat :=
  if Plan.planEq p cPB then 0 else if Plan.planEq p cPA then 1 else 2

theorem cLookup2_inv (k : PromiseKey) (q : Plan)
    (h : promisedTable cMapper2 k = some q) :
    (k = cKA ∧ q = cPA) ∨ (k = cKB ∧ q = cPB) := by
  unfold promisedTable cMapper2 at h
  by_cases h1 : cKA = k
  · subst h1
    simp [List.find?] at h
    exact Or.inl ⟨rfl, h.symm⟩
  · have hbe1 : (cKA == k) = false := by
      cases hbe : cKA == k
      · rfl
      · exact absurd (eq_of_beq hbe) h1
    by_cases h2 : cKB = k
    · subst h2
      simp [List.find?, hbe1] at h
      exact Or.inr ⟨rfl, h.symm⟩
    · have hbe2 : (cKB == k) = false := by
        cases hbe : cKB == k
        · rfl
        · exact absurd (eq_of_beq hbe) h2
      simp [List.find?, hbe1, hbe2] at h

theorem cReach2_inv (k : PromiseKey) (h : ReachKey cMapper2 cKA k) :
    k = cKA ∨ k = cKB := by
  induction h with
  | refl => exact Or.inl rfl
  | step h1 hpt hm ih =>
    rcases ih with rfl | rfl
    · rcases cLookup2_inv _ _ hpt with ⟨-, rfl⟩ | ⟨hab, -⟩
      · right
        rw [show cPA.promList = [cKB] from by decide] at hm
        simpa using hm
      · exact absurd hab (by decide)
    · rcases cLookup2_inv _ _ hpt with ⟨hab, -⟩ | ⟨-, rfl⟩
      · exact absurd hab (by decide)
      · rw [show cPB.promList = [] from by decide] at hm
        exact absurd hm (by simp)

/-- Witness: a two-entry promises table in which one plan consumes the
promise of the other satisfies all three hypotheses, so the corrected claim
applies to it. -/
theorem claim_C2_witness :
    ∃ out, ExecutionGraph.walk cMapper2 [cKA] = .ok out ∧
      (∀ q, ReachablePlan cMapper2 [cKA] q →
        (out.map (fun e => e.2)).countP (fun r => Plan.planEq r q) = 1) ∧
      (∀ l₁ e l₂, out = l₁ ++ e :: l₂ →
        ∀ q, Relation.TransGen (DirectDep cMapper2) e.2 q →
          ∃ p ∈ l₁.map (fun x => x.2), Plan.planEq p q = true) :=
  claim_C2 cMapper2 [cKA] cRank2
    (by
      intro k0 hk0 k hrk
      have hk0A : k0 = cKA := by simpa using hk0
      subst hk0A
      rcases cReach2_inv k hrk with rfl | rfl
      · decide
      · decide)
    (by
      intro p q hd
      obtain ⟨k, hk, hq⟩ := hd
      rcases cLookup2_inv k q hq with ⟨rfl, rfl⟩ | ⟨rfl, rfl⟩
      · have hApB : Plan.planEq cPA cPB = false := by decide
        have hAA : Plan.planEq cPA cPA = true := planEq_refl cPA
        have hnB : Plan.planEq p cPB = false := by
          apply planEq_false_of_not
          intro hpe
          have hmm := (planEq_promList_mem p cPB hpe cKA).mp hk
          rw [show cPB.promList = [] from by decide] at hmm
          exact absurd hmm (by simp)
        have hnA : Plan.planEq p cPA = false := by
          apply planEq_false_of_not
          intro hpe
          have hmm := (planEq_promList_mem p cPA hpe cKA).mp hk
          rw [show cPA.promList = [cKB] from by decide] at hmm
          have hAB : cKA = cKB := by simpa using hmm
          exact absurd hAB (by decide)
        show cRank2 cPA < cRank2 p
        unfold cRank2
        simp [hApB, hAA, hnB, hnA]
      · have hBB : Plan.planEq cPB cPB = true := planEq_refl cPB
        have hnB : Plan.planEq p cPB = false := by
          apply planEq_false_of_not
          intro hpe
          have hmm := (planEq_promList_mem p cPB hpe cKB).mp hk
          rw [show cPB.promList = [] from by decide] at hmm
          exact absurd hmm (by simp)
        show cRank2 cPB < cRank2 p
        unfold cRank2
        simp only [hBB, if_true, hnB]
        by_cases hA : Plan.planEq p cPA = true
        · simp [hA]
        · have hA2 : Plan.planEq p cPA = false := by simpa using hA
          simp [hA2])
    (by
      intro p q hpe
      unfold cRank2
      rw [planEq_congr_left p q cPB hpe, planEq_congr_left p q cPA hpe])

def cKL : PromiseKey := ⟨12, cEnt, none⟩

def cPL : Plan := Plan.make (.func 30) [] [(0, .prom cKL)]

def cMapperL : List (PromiseKey × Plan) := [(cKL, cPL)]

theorem cLookupL_inv (k : PromiseKey) (q : Plan)
    (h : promisedTable cMapperL k = some q) : k = cKL ∧ q = cPL := by
  unfold promisedTable cMapperL at h
  by_cases h1 : cKL = k
  · subst h1
    simp [List.find?] at h
    exact ⟨rfl, h.symm⟩
  · have hbe : (cKL == k) = false := by
      cases hbe2 : cKL == k
      · rfl
      · exact absurd (eq_of_beq hbe2) h1
    simp [List.find?, hbe] at h

theorem cReachL_inv (k : PromiseKey) (h : ReachKey cMapperL cKL k) : k = cKL := by
  induction h with
  | refl => rfl
  | step h1 hpt hm ih =>
    obtain ⟨-, rfl⟩ := cLookupL_inv _ _ hpt
    rw [show cPL.promList = [cKL] from by decide] at hm
    simpa using hm

/-- Counterexample to the unamended claim: a registered self-dependent plan.
Every transitively reachable key is registered and the walk succeeds, but the
single yield transitively depends on itself and nothing is yielded before it,
so a dependency is not yielded strictly before its dependent. -/
theorem claim_C2_counterexample :
    (∀ k0 ∈ [cKL], ∀ k, ReachKey cMapperL k0 k →
      (promisedTable cMapperL k).isSome = true) ∧
    ExecutionGraph.walk cMapperL [cKL] = .ok [(cKL, cPL)] ∧
    Relation.TransGen (DirectDep cMapperL) cPL cPL ∧
    ([(cKL, cPL)] = ([] : List (PromiseKey × Plan)) ++ (cKL, cPL) :: [] ∧
      ¬ ∃ p ∈ ([] : List (PromiseKey × Plan)).map (fun x => x.2),
        Plan.planEq p cPL = true) := by
  refine ⟨?hreg, ?hwalk, ?htg, rfl, by simp⟩
  case hreg =>
    intro k0 hk0 k hrk
    have hk0L : k0 = cKL := by simpa using hk0
    subst hk0L
    obtain rfl := cReachL_inv k hrk
    decide
  case hwalk =>
    have hlkL : promisedTable cMapperL cKL = some cPL := by decide
    have h1 : ExecutionGraph.walkPlan cMapperL 1 cKL [cPL] = .ok ([cPL], []) :=
      walkPlan_succ_prune cMapperL 0 cKL [cPL] cPL hlkL ⟨cPL, by simp, planEq_refl cPL⟩
    have h2 : ExecutionGraph.walkKeys cMapperL 1 [cKL] [cPL] = .ok ([cPL], []) := by
      have h2a := walkKeys_cons_ok cMapperL 1 cKL [] [cPL] [cPL] [cPL] [] []
        h1 (walkKeys_nil cMapperL 1 [cPL])
      simpa using h2a
    have h3 : ExecutionGraph.walkPlan cMapperL 2 cKL [] = .ok ([cPL], [(cKL, cPL)]) := by
      have h3a := walkPlan_succ_descend cMapperL 1 cKL [] [cPL] cPL []
        hlkL (memEq_nil cPL) h2
      simpa using h3a
    have h4 : ExecutionGraph.walkKeys cMapperL 2 [cKL] [] = .ok ([cPL], [(cKL, cPL)]) := by
      have h4a := walkKeys_cons_ok cMapperL 2 cKL [] [] [cPL] [cPL] [(cKL, cPL)] []
        h3 (walkKeys_nil cMapperL 2 [cPL])
      simpa using h4a
    show ExecutionGraph.walk cMapperL [cKL] = .ok [(cKL, cPL)]
    unfold ExecutionGraph.walk
    have hlen : cMapperL.length + 1 = 2 := rfl
    rw [hlen, h4]
  case htg =>
    exact Relation.TransGen.single ⟨cKL, by decide, by decide⟩

end Sched
